import Mathlib

/-!
# STOMP header multi-map (`header.go`)

A verification development for the `Header` type of the STOMP library:

```go
type Header map[string][]string
```

Go maps and slices are reference values, so the embedding passes an explicit
`Store` around.  A `Store` holds the backing arrays that slices point into and
the map objects that `Header` values refer to.  A slice is a window
`(arr, off, len, cap)` onto one backing array; a `Header` is either `nil`
(`none`) or a reference to a map object.  Run-time failures (assignment to an
entry of a nil map, index out of range) are results of type `Except Panic`.

What a header holds is read off the store by `seqOf`: the sequence of values
stored for a key, or `none` when the key is absent.  The statements about the
operations are statements about `seqOf` before and after a call.  They assume
what every Go state satisfies: the window of each slice lies inside its
backing array (`storeOk`), and a header refers to a map object that exists
(`headerOk`).
-/

namespace stomp

/-! ## Slices and backing arrays -/

/-- A Go slice value: a window onto the backing array number `arr`, starting
at cell `off`, with `len` visible cells out of `cap` usable ones. -/
structure Slice where
  arr : Nat
  off : Nat
  len : Nat
  cap : Nat
  deriving DecidableEq

/-- The zero value of a slice type (`nil`): no cells at all. -/
def nilSlice : Slice := ⟨0, 0, 0, 0⟩

/-- The run-time failures that the operations of `header.go` can raise. -/
inductive Panic where
  | assignNilMap
  | indexOutOfRange
  deriving DecidableEq

/-- The backing arrays of the program, numbered by position. -/
abbrev Arrays := List (List String)

/-- The content of cell `i` of backing array `arr`. -/
def cell (a : Arrays) (arr i : Nat) : String :=
  (a.getD arr []).getD i ""

/-- Store `v` in cell `i` of backing array `arr`. -/
def writeCell (a : Arrays) (arr i : Nat) (v : String) : Arrays :=
  a.set arr ((a.getD arr []).set i v)

/-- The sequence of values a slice shows: its first `len` cells. -/
def readSlice (a : Arrays) (s : Slice) : List String :=
  (List.range s.len).map (fun i => cell a s.arr (s.off + i))

/-- The index expression `s[i]` of Go, which fails when `i` is not below
`len(s)`. -/
def sliceIndex (a : Arrays) (s : Slice) (i : Nat) : Except Panic String :=
  if i < s.len then .ok (cell a s.arr (s.off + i)) else .error Panic.indexOutOfRange

/-- The capacity Go gives the fresh array when `append` has to reallocate.
The language only promises that it is large enough; `grow` stands for the
policy of the run-time system. -/
def newCap (grow : Nat → Nat) (oldCap needed : Nat) : Nat :=
  max needed (grow oldCap)

/-- The built-in `append(s, v)` of Go with one appended value.  When the
slice has spare capacity the value is written in place, into the cell right
after the visible ones; otherwise a fresh, large enough array is allocated
and the visible cells are copied into it. -/
def goAppend (grow : Nat → Nat) (a : Arrays) (s : Slice) (v : String) : Arrays × Slice :=
  if s.len < s.cap then
    (writeCell a s.arr (s.off + s.len) v, { s with len := s.len + 1 })
  else
    let c := newCap grow s.cap (s.len + 1)
    (a ++ [readSlice a s ++ v :: List.replicate (c - (s.len + 1)) ""],
      ⟨a.length, 0, s.len + 1, c⟩)

/-- The composite literal `[]string{value}`: a fresh one-cell array. -/
def sliceLit (a : Arrays) (value : String) : Arrays × Slice :=
  (a ++ [[value]], ⟨a.length, 0, 1, 1⟩)

/-- The built-in `make([]string, n)`: a fresh array of `n` empty strings. -/
def makeSlice (a : Arrays) (n : Nat) : Arrays × Slice :=
  (a ++ [List.replicate n ""], ⟨a.length, 0, n, n⟩)

/-- Write the values `vs` into consecutive cells of array `arr` from cell
`i` on. -/
def writeCells (a : Arrays) (arr i : Nat) : List String → Arrays
  | [] => a
  | v :: vs => writeCells (writeCell a arr i v) arr (i + 1) vs

/-- The built-in `copy(dst, src)`: the first `min(len(dst), len(src))` values
of `src` are stored in `dst`.  The source is read before anything is written,
as Go specifies for overlapping slices. -/
def goCopy (a : Arrays) (dst src : Slice) : Arrays :=
  writeCells a dst.arr dst.off ((readSlice a src).take (min dst.len src.len))

/-! ## Maps, headers and the store -/

/-- A Go map object of type `map[string][]string`. -/
abbrev HMap := AList (fun _ : String => Slice)

/-- The heap of the program: backing arrays and map objects. -/
structure Store where
  arrays : Arrays
  maps : List HMap

/-- A value of the Go type `Header`: `none` is the nil map, `some id` refers
to map object number `id` of the store. -/
abbrev Header := Option Nat

/-- The map object a header refers to.  Reading a nil map behaves as reading
an empty map. -/
def deref (σ : Store) (h : Header) : HMap :=
  match h with
  | none => ∅
  | some id => σ.maps.getD id ∅

/-- The index expression `m[key]` of Go on a map: the stored slice, or the
zero value (the nil slice) when the key is absent. -/
def mapIndex (m : HMap) (key : String) : Slice :=
  (m.lookup key).getD nilSlice

/-- The assignment `h[key] = s` of Go, which fails on a nil map. -/
def mapAssign (σ : Store) (h : Header) (key : String) (s : Slice) : Except Panic Store :=
  match h with
  | none => .error Panic.assignNilMap
  | some id => .ok { σ with maps := σ.maps.set id ((σ.maps.getD id ∅).insert key s) }

/-! ## The operations of `header.go` -/

/-- `func (h Header) Add(key, value string)`:
`h[key] = append(h[key], value)`. -/
def Add (grow : Nat → Nat) (σ : Store) (h : Header) (key value : String) : Except Panic Store :=
  let r := goAppend grow σ.arrays (mapIndex (deref σ h) key) value
  mapAssign { σ with arrays := r.1 } h key r.2

/-- `func (h Header) Set(key, value string)`:
`h[key] = []string{value}`. -/
def Set (σ : Store) (h : Header) (key value : String) : Except Panic Store :=
  let r := sliceLit σ.arrays value
  mapAssign { σ with arrays := r.1 } h key r.2

/-- `func (h Header) Get(key string) string`. -/
def Get (σ : Store) (h : Header) (key : String) : Except Panic String :=
  if h = none then .ok ""
  else
    let values := mapIndex (deref σ h) key
    if values.len = 0 then .ok ""
    else sliceIndex σ.arrays values 0

/-- `func (h Header) Contains(key string) (value string, ok bool)`. -/
def Contains (σ : Store) (h : Header) (key : String) : Except Panic (String × Bool) :=
  if h = none then .ok ("", false)
  else
    match (deref σ h).lookup key with
    | none => .ok ("", false)
    | some values =>
      match sliceIndex σ.arrays values 0 with
      | .error e => .error e
      | .ok value => .ok (value, true)

/-- `func (h Header) Del(key string)`: `delete(h, key)`, which does nothing
on a nil map. -/
def Del (σ : Store) (h : Header) (key : String) : Store :=
  match h with
  | none => σ
  | some id => { σ with maps := σ.maps.set id ((σ.maps.getD id ∅).erase key) }

/-- The body of the loop of `Clone` for one entry `k, v` of `h`, with `hc`
the map being filled. -/
def cloneStep (hc : Nat) (σ : Store) (e : Sigma (fun _ : String => Slice)) : Store :=
  if e.2.len > 0 then
    let r := makeSlice σ.arrays e.2.len
    let a := goCopy r.1 r.2 e.2
    { arrays := a, maps := σ.maps.set hc ((σ.maps.getD hc ∅).insert e.1 r.2) }
  else σ

/-- `func (h Header) Clone() Header`: a fresh map object `hc` is allocated
and filled from the entries of `h`.  Go visits the entries of a map in an
unspecified order; here it is the order of the entry list of the map
object, which is arbitrary. -/
def Clone (σ : Store) (h : Header) : Store × Header :=
  let hc := σ.maps.length
  ((deref σ h).entries.foldl (cloneStep hc) { σ with maps := σ.maps ++ [∅] }, some hc)

/-! ## The content length -/

/-- The ways `strconv.ParseUint` fails. -/
inductive NumError where
  | ErrSyntax
  | ErrRange
  | ErrBase
  | ErrBitSize
  deriving DecidableEq

/-- The helper `lower` of package `strconv` on a byte: `c | ('x' - 'X')`. -/
def lower (c : Nat) : Nat := c ||| 32

/-- The value of a byte as a digit, as in the `switch` of the loop of
`strconv.ParseUint`; `none` is its `default` case. -/
def digitVal (c : Nat) : Option Nat :=
  if 48 ≤ c ∧ c ≤ 57 then some (c - 48)
  else if 97 ≤ lower c ∧ lower c ≤ 122 then some (lower c - 97 + 10)
  else none

/-- The loop of `strconv.ParseUint` over the bytes of the text, with `n` the
number read so far, held in 64 bits. -/
def parseLoop (base cutoff maxVal : Nat) : List Nat → Nat → Nat × Option NumError
  | [], n => (n, none)
  | c :: cs, n =>
    match digitVal c with
    | none => (0, some NumError.ErrSyntax)
    | some d =>
      if d ≥ base then (0, some NumError.ErrSyntax)
      else if n ≥ cutoff then (maxVal, some NumError.ErrRange)
      else
        let n0 := (n * base) % 2 ^ 64
        let n1 := (n0 + d) % 2 ^ 64
        if n1 < n0 ∨ n1 > maxVal then (maxVal, some NumError.ErrRange)
        else parseLoop base cutoff maxVal cs n1

/-- The function `strconv.ParseUint(s, base, bitSize)` of the Go standard
library, for an explicit base from 2 to 36 and a bit size from 1 to 64 (the
program calls it with base 10 and bit size 32).  Base 0 and bit size 0 ask Go
for auto-detection, which is left out: they are reported as errors here.  A
character outside ASCII is taken as one unit; each of its bytes falls in the
`default` case of the loop, as the character does here. -/
def ParseUint (s : String) (base bitSize : Nat) : Nat × Option NumError :=
  if s = "" then (0, some NumError.ErrSyntax)
  else if ¬ (2 ≤ base ∧ base ≤ 36) then (0, some NumError.ErrBase)
  else if ¬ (1 ≤ bitSize ∧ bitSize ≤ 64) then (0, some NumError.ErrBitSize)
  else
    parseLoop base ((2 ^ 64 - 1) / base + 1) (2 ^ bitSize - 1) (s.toList.map Char.toNat) 0

/-- The conversion `int(n)` of an unsigned 64-bit number, on a platform
whose `int` has `intSize` bits: the low bits, read in two's complement. -/
def toInt (intSize : Nat) (n : Nat) : Int :=
  if n % 2 ^ intSize < 2 ^ (intSize - 1) then (n % 2 ^ intSize : Nat)
  else (n % 2 ^ intSize : Nat) - (2 ^ intSize : Nat)

/-- Modelled from the spec: the constant `frame.ContentLength` of package
`frame`, which is not among the sources; the spec names the key
`"content-length"`. -/
def frameContentLength : String := "content-length"

/-- `func (h Header) ContentLength() (contentLength int, ok bool, err error)`,
on a platform whose `int` has `intSize` bits.  The results are named, so a
bare `return` gives back their current values. -/
def ContentLength (intSize : Nat) (σ : Store) (h : Header) :
    Except Panic (Int × Bool × Option NumError) :=
  match Get σ h frameContentLength with
  | .error e => .error e
  | .ok text =>
    if text = "" then .ok (0, false, none)
    else
      let r := ParseUint text 10 32
      if r.2 ≠ none then .ok (0, false, r.2)
      else .ok (toInt intSize r.1, true, r.2)

/-! ## What a header holds -/

/-- The sequence of values stored for `key` in `h`; `none` when `key` is not
a key of `h`. -/
def seqOf (σ : Store) (h : Header) (key : String) : Option (List String) :=
  ((deref σ h).lookup key).map (readSlice σ.arrays)

/-- The values recorded for `key` in `h`: the stored sequence, or the empty
sequence when `key` is absent. -/
def valuesOf (σ : Store) (h : Header) (key : String) : List String :=
  (seqOf σ h key).getD []

/-- A slice is well formed when its window lies inside its backing array. -/
def sliceOk (a : Arrays) (s : Slice) : Prop :=
  s.len ≤ s.cap ∧ s.off + s.cap ≤ (a.getD s.arr []).length

instance (a : Arrays) (s : Slice) : Decidable (sliceOk a s) := by
  unfold sliceOk; infer_instance

/-- A map is well formed when every slice it holds is. -/
def mapOk (a : Arrays) (m : HMap) : Prop :=
  ∀ e ∈ m.entries, sliceOk a e.2

instance (a : Arrays) (m : HMap) : Decidable (mapOk a m) := by
  unfold mapOk; infer_instance

/-- A store is well formed when every map object of it is. -/
def storeOk (σ : Store) : Prop :=
  ∀ m ∈ σ.maps, mapOk σ.arrays m

instance (σ : Store) : Decidable (storeOk σ) := by
  unfold storeOk; infer_instance

/-- A header of a store is the nil map or refers to one of its map objects. -/
def headerOk (σ : Store) (h : Header) : Prop :=
  ∀ id ∈ h, id < σ.maps.length

instance (σ : Store) (h : Header) : Decidable (headerOk σ h) := by
  unfold headerOk; infer_instance

/-- The first spare cell of `s`, the one `append(s, v)` writes when `s` has
spare capacity, is one of the visible cells of `t`. -/
def spareCellIn (s t : Slice) : Prop :=
  s.len < s.cap ∧ t.arr = s.arr ∧ t.off ≤ s.off + s.len ∧ s.off + s.len < t.off + t.len

instance (s t : Slice) : Decidable (spareCellIn s t) := by
  unfold spareCellIn; infer_instance

/-- The arrays `b` extend the arrays `a`: every array of `a` is still there
with the same cells, and every slice well formed in `a` is so in `b`. -/
def arraysExtend (a b : Arrays) : Prop :=
  a.length ≤ b.length ∧ (∀ arr j, arr < a.length → cell b arr j = cell a arr j) ∧
    (∀ t, sliceOk a t → sliceOk b t)

/-! ## Sequences of mutations -/

/-- A call of one of the three mutating operations. -/
inductive Op where
  | add (key value : String)
  | set (key value : String)
  | del (key : String)
  deriving DecidableEq

/-- Run one call on the header `h`. -/
def applyOp (grow : Nat → Nat) (σ : Store) (h : Header) : Op → Except Panic Store
  | Op.add key value => Add grow σ h key value
  | Op.set key value => Set σ h key value
  | Op.del key => .ok (Del σ h key)

/-- Run a sequence of calls on the header `h`, one after the other.  The run
stops at the first call that fails; the result is the store reached and the
failure, if any. -/
def runOps (grow : Nat → Nat) (h : Header) : List Op → Store → Store × Option Panic
  | [], σ => (σ, none)
  | op :: ops, σ =>
    match applyOp grow σ h op with
    | .ok σ1 => runOps grow h ops σ1
    | .error e => (σ, some e)

/-- Two headers of a store are separate when they are different map objects
and no slice of one lies on the same backing array as a slice of the other
(slices of capacity zero have no cells and are left out). -/
def separate (σ : Store) (x y : Header) : Prop :=
  x ≠ y ∧ ∀ k s k' t, (deref σ x).lookup k = some s → (deref σ y).lookup k' = some t →
    0 < s.cap → 0 < t.cap → s.arr ≠ t.arr

/-! ## Decimal texts, in the words of the specification -/

/-- The number that the digit codes `cs` denote in base 10 when they follow
the digits of `n`. -/
def decimalFrom (n : Nat) (cs : List Nat) : Nat :=
  cs.foldl (fun m c => 10 * m + (c - 48)) n

/-- The base-10 value of a text of decimal digits. -/
def decimalValue (s : String) : Nat :=
  decimalFrom 0 (s.toList.map Char.toNat)

/-- A non-empty text made only of the ASCII decimal digits `'0'` to `'9'`
(codes 48 to 57). -/
def allDigits (s : String) : Prop :=
  s ≠ "" ∧ ∀ c ∈ s.toList.map Char.toNat, 48 ≤ c ∧ c ≤ 57

instance (s : String) : Decidable (allDigits s) := by
  unfold allDigits; infer_instance

/-- A valid unsigned base-10 integer representable in 32 bits: a non-empty
text of decimal digits whose value is at most 4294967295. -/
def validUint32 (s : String) : Prop :=
  allDigits s ∧ decimalValue s ≤ 4294967295

instance (s : String) : Decidable (validUint32 s) := by
  unfold validUint32; infer_instance

/-- The first value stored under the content-length key, or the empty text
when there is none. -/
def firstLength (σ : Store) (h : Header) : String :=
  (valuesOf σ h frameContentLength).headD ""

/-- Every key present in the header has at least one value. -/
def nonEmptySeqs (σ : Store) (h : Header) : Prop :=
  ∀ k, seqOf σ h k ≠ some []

/-! ## Example stores -/

/-- A growth policy for the examples: the capacity doubles. -/
def double (n : Nat) : Nat := 2 * n

/-- One empty, initialized header (map object 0) and no backing array. -/
def emptyStore : Store := ⟨[], [∅]⟩

/-- The header `{"k": ["a", "a"]}` as map object 0. -/
def dupStore : Store := ⟨[["a", "a"]], [AList.insert "k" ⟨0, 0, 2, 2⟩ ∅]⟩

/-- The header `{"k": []string{}}` as map object 0: the key is present with a
sequence of length zero. -/
def emptySeqStore : Store := ⟨[], [AList.insert "k" nilSlice ∅]⟩

/-- The header built by `s := []string{"1", ""}` and
`Header{"a": s[:1], "b": s}` as map object 0: both slices lie on the same
backing array, and the one under `"a"` has one spare cell. -/
def sharedStore : Store :=
  ⟨[["1", ""]], [AList.insert "a" ⟨0, 0, 1, 2⟩ (AList.insert "b" ⟨0, 0, 2, 2⟩ ∅)]⟩

/-- The header `{"a": ["x", "y"], "e": []string{}}` as map object 0. -/
def mixedStore : Store :=
  ⟨[["x", "y"]], [AList.insert "a" ⟨0, 0, 2, 2⟩ (AList.insert "e" nilSlice ∅)]⟩

/-- The header `{"content-length": [""]}` as map object 0. -/
def blankLengthStore : Store :=
  ⟨[[""]], [AList.insert "content-length" ⟨0, 0, 1, 1⟩ ∅]⟩

/-- The header `{"content-length": [text]}` as map object 0. -/
def lengthStore (text : String) : Store :=
  ⟨[[text]], [AList.insert "content-length" ⟨0, 0, 1, 1⟩ ∅]⟩

/-- The header `{"content-length": [first, second]}` as map object 0. -/
def twoLengthStore (first second : String) : Store :=
  ⟨[[first, second]], [AList.insert "content-length" ⟨0, 0, 2, 2⟩ ∅]⟩

/-! ## Backing arrays: reading and writing cells -/

theorem getD_set_length (a : Arrays) (n : Nat) (x : List String) (arr : Nat) :
    ((a.set n x).getD arr []) = if arr = n ∧ n < a.length then x else a.getD arr [] := by
  simp only [List.getD_eq_getElem?_getD, List.getElem?_set]
  by_cases h : n = arr
  · subst h
    by_cases h2 : n < a.length
    · simp [h2]
    · simp [h2]
      simp at h2
      simp [List.getElem?_eq_none h2]
  · have : ¬ arr = n := fun e => h e.symm
    simp [h, this]

theorem cell_writeCell (a : Arrays) (arr i : Nat) (v : String) (arr' i' : Nat) :
    cell (writeCell a arr i v) arr' i' =
      if arr' = arr ∧ i' = i ∧ arr < a.length ∧ i < (a.getD arr []).length then v
      else cell a arr' i' := by
  unfold cell writeCell
  rw [getD_set_length]
  by_cases h1 : arr' = arr
  · subst h1
    by_cases h2 : arr' < a.length
    · simp only [h2, and_self, if_true, true_and, and_true]
      simp only [List.getD_eq_getElem?_getD, List.getElem?_set]
      by_cases h3 : i = i'
      · subst h3
        by_cases h4 : i < (a[arr']?.getD []).length
        · simp [h4]
        · simp only [h4, and_false, if_false]
          simp [List.getElem?_eq_none (Nat.le_of_not_lt h4)]
      · have : ¬ i' = i := fun e => h3 e.symm
        simp [h3, this]
    · simp [h2]
  · simp [h1]

theorem length_getD_writeCell (a : Arrays) (arr i : Nat) (v : String) (arr' : Nat) :
    ((writeCell a arr i v).getD arr' []).length = (a.getD arr' []).length := by
  unfold writeCell
  rw [getD_set_length]
  split
  · rename_i h; rw [h.1]; simp
  · rfl

theorem length_writeCell (a : Arrays) (arr i : Nat) (v : String) :
    (writeCell a arr i v).length = a.length := by
  simp [writeCell]

theorem getD_append_one (a : Arrays) (x : List String) (arr : Nat) :
    (a ++ [x]).getD arr [] = if arr = a.length then x else a.getD arr [] := by
  simp only [List.getD_eq_getElem?_getD]
  rcases Nat.lt_trichotomy arr a.length with h | h | h
  · rw [List.getElem?_append_left h]; simp [Nat.ne_of_lt h]
  · subst h; simp
  · rw [List.getElem?_eq_none (by simp; omega), List.getElem?_eq_none (by omega)]
    simp [Nat.ne_of_gt h]

/-! ## Slices: reading, well-formedness and `append` -/

theorem cell_append_one (a : Arrays) (x : List String) (arr i : Nat) :
    cell (a ++ [x]) arr i = if arr = a.length then x.getD i "" else cell a arr i := by
  unfold cell
  rw [getD_append_one]
  split <;> rfl

theorem readSlice_congr (a b : Arrays) (s : Slice)
    (h : ∀ i, i < s.len → cell b s.arr (s.off + i) = cell a s.arr (s.off + i)) :
    readSlice b s = readSlice a s := by
  unfold readSlice
  apply List.map_congr_left
  intro i hi
  exact h i (List.mem_range.mp hi)

theorem length_readSlice (a : Arrays) (s : Slice) : (readSlice a s).length = s.len := by
  simp [readSlice]

theorem readSlice_len_zero (a : Arrays) (s : Slice) (h : s.len = 0) : readSlice a s = [] := by
  simp [readSlice, h]

theorem sliceOk_arr_lt (a : Arrays) (s : Slice) (h : sliceOk a s) (hc : 0 < s.cap) :
    s.arr < a.length := by
  by_contra hn
  have : a.getD s.arr [] = [] := by
    simp [List.getD_eq_getElem?_getD, List.getElem?_eq_none (Nat.le_of_not_lt hn)]
  have h2 := h.2
  rw [this] at h2
  simp at h2
  omega

theorem sliceOk_writeCell (a : Arrays) (arr i : Nat) (v : String) (s : Slice)
    (h : sliceOk a s) : sliceOk (writeCell a arr i v) s := by
  unfold sliceOk at *
  rw [length_getD_writeCell]
  exact h

theorem sliceOk_append_one (a : Arrays) (x : List String) (s : Slice)
    (h : sliceOk a s) : sliceOk (a ++ [x]) s := by
  refine ⟨h.1, ?_⟩
  rw [getD_append_one]
  split
  · rename_i e
    have : a.getD s.arr [] = [] := by
      simp [List.getD_eq_getElem?_getD, List.getElem?_eq_none (Nat.le_of_eq e.symm)]
    have h2 := h.2
    rw [this] at h2
    simp at h2
    omega
  · exact h.2

theorem readSlice_append_one (a : Arrays) (x : List String) (s : Slice)
    (h : sliceOk a s) : readSlice (a ++ [x]) s = readSlice a s := by
  apply readSlice_congr
  intro i hi
  rw [cell_append_one]
  have : s.arr < a.length := sliceOk_arr_lt a s h (by have := h.1; omega)
  simp [Nat.ne_of_lt this]

theorem readSlice_fresh (a : Arrays) (x : List String) (n c : Nat) (hn : n ≤ x.length) :
    readSlice (a ++ [x]) ⟨a.length, 0, n, c⟩ = x.take n := by
  apply List.ext_getElem
  · simp [readSlice, hn]
  · intro i h1 h2
    have : i < x.length := by simp at h2; omega
    simp [readSlice, cell_append_one, List.getD_eq_getElem?_getD, List.getElem?_eq_getElem this]

/-- What `append` does: the new slice shows the old values followed by the
appended one, stays well formed, and no visible cell of the old slice moved. -/
theorem goAppend_read (grow : Nat → Nat) (a : Arrays) (s : Slice) (v : String)
    (h : sliceOk a s) :
    readSlice (goAppend grow a s v).1 (goAppend grow a s v).2 = readSlice a s ++ [v] := by
  unfold goAppend
  split
  · rename_i hlt
    simp only [readSlice, List.range_succ, List.map_append, List.map_cons, List.map_nil]
    have harr : s.arr < a.length := sliceOk_arr_lt a s h (by omega)
    have hb : s.off + s.len < (a.getD s.arr []).length := by have := h.2; omega
    congr 1
    · apply List.map_congr_left
      intro i hi
      have hi := List.mem_range.mp hi
      rw [cell_writeCell]
      have : ¬ (s.off + i = s.off + s.len) := by omega
      simp [this]
    · rw [cell_writeCell, if_pos ⟨rfl, rfl, harr, hb⟩]
  · simp only
    rw [readSlice_fresh]
    · have : (readSlice a s).length = s.len := length_readSlice a s
      rw [List.take_append_eq_append_take]
      simp [this]
    · simp [length_readSlice]

theorem goAppend_ok (grow : Nat → Nat) (a : Arrays) (s : Slice) (v : String)
    (h : sliceOk a s) : sliceOk (goAppend grow a s v).1 (goAppend grow a s v).2 := by
  unfold goAppend
  split
  · rename_i hlt
    apply sliceOk_writeCell
    exact ⟨by simp; omega, h.2⟩
  · refine ⟨by simp [newCap], ?_⟩
    simp only [getD_append_one, if_true]
    simp [length_readSlice, newCap]
    omega

theorem goAppend_mono (grow : Nat → Nat) (a : Arrays) (s : Slice) (v : String) (t : Slice)
    (h : sliceOk a t) : sliceOk (goAppend grow a s v).1 t := by
  unfold goAppend
  split
  · exact sliceOk_writeCell _ _ _ _ _ h
  · exact sliceOk_append_one _ _ _ h

theorem goAppend_cell (grow : Nat → Nat) (a : Arrays) (s : Slice) (v : String) (arr i : Nat)
    (harr : arr < a.length)
    (hne : ¬ (s.len < s.cap ∧ arr = s.arr ∧ i = s.off + s.len)) :
    cell (goAppend grow a s v).1 arr i = cell a arr i := by
  unfold goAppend
  split
  · rename_i hlt
    rw [cell_writeCell]
    have : ¬ (arr = s.arr ∧ i = s.off + s.len ∧ s.arr < a.length ∧
        s.off + s.len < (a.getD s.arr []).length) := by
      rintro ⟨h1, h2, -⟩
      exact hne ⟨hlt, h1, h2⟩
    rw [if_neg this]
  · rw [cell_append_one]
    simp [Nat.ne_of_lt harr]

/-! ## Well-formed maps and stores -/

theorem mapOk_lookup (a : Arrays) (m : HMap) (k : String) (s : Slice)
    (h : mapOk a m) (hl : m.lookup k = some s) : sliceOk a s :=
  h ⟨k, s⟩ (AList.mem_lookup_iff.mp hl)

theorem sliceOk_nilSlice (a : Arrays) : sliceOk a nilSlice := by
  simp [sliceOk, nilSlice]

theorem mapOk_mapIndex (a : Arrays) (m : HMap) (k : String) (h : mapOk a m) :
    sliceOk a (mapIndex m k) := by
  unfold mapIndex
  cases hl : m.lookup k with
  | none => exact sliceOk_nilSlice a
  | some s => exact mapOk_lookup a m k s h hl

theorem mapOk_insert (a : Arrays) (m : HMap) (k : String) (s : Slice)
    (h : mapOk a m) (hs : sliceOk a s) : mapOk a (m.insert k s) := by
  intro e he
  rw [AList.insert_entries] at he
  rcases List.mem_cons.mp he with h1 | h1
  · subst h1; exact hs
  · exact h e ((List.kerase_sublist k m.entries).subset h1)

theorem mapOk_erase (a : Arrays) (m : HMap) (k : String)
    (h : mapOk a m) : mapOk a (m.erase k) := by
  intro e he
  exact h e ((List.kerase_sublist k m.entries).subset he)

theorem mapOk_empty (a : Arrays) : mapOk a ∅ := by
  intro e he
  cases he

theorem mapOk_mono (a b : Arrays) (m : HMap) (hab : ∀ s, sliceOk a s → sliceOk b s)
    (h : mapOk a m) : mapOk b m :=
  fun e he => hab _ (h e he)

theorem getD_set_maps (l : List HMap) (n : Nat) (x : HMap) (i : Nat) :
    (l.set n x).getD i ∅ = if i = n ∧ n < l.length then x else l.getD i ∅ := by
  simp only [List.getD_eq_getElem?_getD, List.getElem?_set]
  by_cases h : n = i
  · subst h
    by_cases h2 : n < l.length
    · simp [h2]
    · simp only [h2, and_false, if_false, if_true]
      simp [List.getElem?_eq_none (Nat.le_of_not_lt h2)]
  · have : ¬ i = n := fun e => h e.symm
    simp [h, this]

theorem storeOk_deref (σ : Store) (h : Header) (hσ : storeOk σ) : mapOk σ.arrays (deref σ h) := by
  unfold deref
  cases h with
  | none => exact mapOk_empty _
  | some id =>
    simp only [List.getD_eq_getElem?_getD]
    cases hg : σ.maps[id]? with
    | none => exact mapOk_empty _
    | some m => exact hσ m (List.getElem?_mem hg)

theorem storeOk_set (a : Arrays) (σ : Store) (id : Nat) (m : HMap)
    (hσ : ∀ x ∈ σ.maps, mapOk a x) (hm : mapOk a m) :
    storeOk { arrays := a, maps := σ.maps.set id m } := by
  intro x hx
  rcases List.mem_or_eq_of_mem_set hx with h1 | h1
  · exact hσ x h1
  · subst h1; exact hm

/-! ## `Add` and `Get` -/

theorem deref_set (σ : Store) (a : Arrays) (id : Nat) (m : HMap) (h : Header) :
    deref { arrays := a, maps := σ.maps.set id m } h =
      if h = some id ∧ id < σ.maps.length then m else deref σ h := by
  cases h with
  | none => simp [deref]
  | some j =>
    simp only [deref, getD_set_maps, Option.some.injEq]

theorem Add_eq (grow : Nat → Nat) (σ : Store) (id : Nat) (k v : String) :
    Add grow σ (some id) k v = .ok
      { arrays := (goAppend grow σ.arrays (mapIndex (deref σ (some id)) k) v).1,
        maps := σ.maps.set id ((deref σ (some id)).insert k
          (goAppend grow σ.arrays (mapIndex (deref σ (some id)) k) v).2) } := rfl

theorem Set_eq (σ : Store) (id : Nat) (k v : String) :
    Set σ (some id) k v = .ok
      { arrays := σ.arrays ++ [[v]],
        maps := σ.maps.set id ((deref σ (some id)).insert k ⟨σ.arrays.length, 0, 1, 1⟩) } := rfl

theorem readSlice_mapIndex (σ : Store) (h : Header) (k : String) :
    readSlice σ.arrays (mapIndex (deref σ h) k) = valuesOf σ h k := by
  unfold valuesOf seqOf mapIndex
  cases (deref σ h).lookup k with
  | none => rfl
  | some s => rfl

theorem Get_eq (σ : Store) (h : Header) (k : String) :
    Get σ h k = .ok ((valuesOf σ h k).headD "") := by
  unfold Get
  split
  · rename_i hn
    subst hn
    rfl
  · rw [← readSlice_mapIndex]
    simp only
    split
    · rename_i h0
      rw [readSlice_len_zero _ _ h0]
      rfl
    · rename_i h0
      unfold sliceIndex
      rw [if_pos (Nat.pos_of_ne_zero h0)]
      unfold readSlice
      obtain ⟨n, hn⟩ := Nat.exists_eq_succ_of_ne_zero h0
      rw [hn, List.range_succ_eq_map]
      rfl

/-- The store after `Add` is well formed when the store before is. -/
theorem Add_storeOk (grow : Nat → Nat) (σ σ1 : Store) (id : Nat) (k v : String)
    (hσ : storeOk σ) (h : Add grow σ (some id) k v = .ok σ1) : storeOk σ1 := by
  rw [Add_eq] at h
  injection h with h
  subst h
  have hs := mapOk_mapIndex σ.arrays (deref σ (some id)) k (storeOk_deref σ (some id) hσ)
  apply storeOk_set _ σ
  · intro x hx
    exact mapOk_mono _ _ _ (fun t ht => goAppend_mono grow _ _ v t ht) (hσ x hx)
  · apply mapOk_insert
    · exact mapOk_mono _ _ _ (fun t ht => goAppend_mono grow _ _ v t ht)
        (storeOk_deref σ (some id) hσ)
    · exact goAppend_ok grow _ _ v hs

theorem Add_maps_length (grow : Nat → Nat) (σ σ1 : Store) (id : Nat) (k v : String)
    (h : Add grow σ (some id) k v = .ok σ1) : σ1.maps.length = σ.maps.length := by
  rw [Add_eq] at h
  injection h with h
  subst h
  simp

theorem Add_seqOf_self (grow : Nat → Nat) (σ σ1 : Store) (id : Nat) (k v : String)
    (hσ : storeOk σ) (hid : id < σ.maps.length)
    (h : Add grow σ (some id) k v = .ok σ1) :
    seqOf σ1 (some id) k = some (valuesOf σ (some id) k ++ [v]) := by
  rw [Add_eq] at h
  injection h with h
  subst h
  have hs := mapOk_mapIndex σ.arrays (deref σ (some id)) k (storeOk_deref σ (some id) hσ)
  unfold seqOf
  rw [deref_set, if_pos ⟨rfl, hid⟩, AList.lookup_insert]
  simp only [Option.map_some']
  rw [goAppend_read grow _ _ v hs, readSlice_mapIndex]

/-- C1: on an initialized header, `Add(k, v)` succeeds and leaves for `k` the
sequence stored before the call (the empty sequence when `k` was absent)
followed by `v`; the earlier values keep their order and their duplicates. -/
theorem Add_appends (grow : Nat → Nat) (σ : Store) (id : Nat) (k v : String)
    (hσ : storeOk σ) (hid : id < σ.maps.length) :
    ∃ σ1, Add grow σ (some id) k v = .ok σ1 ∧
      seqOf σ1 (some id) k = some (valuesOf σ (some id) k ++ [v]) :=
  ⟨_, Add_eq grow σ id k v, Add_seqOf_self grow σ _ id k v hσ hid (Add_eq grow σ id k v)⟩

/-! ## `Add` twice, `Set`, `Get` and `Contains` -/

/-- C2: on an initialized header in which `k` has no values, after
`Add(k, v1); Add(k, v2)` the call `Get(k)` returns `v1` and the sequence
stored for `k` is `[v1, v2]`, of length 2. -/
theorem Add_twice (grow : Nat → Nat) (σ : Store) (id : Nat) (k v1 v2 : String)
    (hσ : storeOk σ) (hid : id < σ.maps.length) (hk : valuesOf σ (some id) k = []) :
    ∃ σ1 σ2, Add grow σ (some id) k v1 = .ok σ1 ∧ Add grow σ1 (some id) k v2 = .ok σ2 ∧
      Get σ2 (some id) k = .ok v1 ∧ seqOf σ2 (some id) k = some [v1, v2] ∧
      (valuesOf σ2 (some id) k).length = 2 := by
  have e1 := Add_eq grow σ id k v1
  generalize hσ1 : (Store.mk (goAppend grow σ.arrays (mapIndex (deref σ (some id)) k) v1).1
    (σ.maps.set id ((deref σ (some id)).insert k
      (goAppend grow σ.arrays (mapIndex (deref σ (some id)) k) v1).2))) = σ1 at e1
  have e2 := Add_eq grow σ1 id k v2
  generalize hσ2 : (Store.mk (goAppend grow σ1.arrays (mapIndex (deref σ1 (some id)) k) v2).1
    (σ1.maps.set id ((deref σ1 (some id)).insert k
      (goAppend grow σ1.arrays (mapIndex (deref σ1 (some id)) k) v2).2))) = σ2 at e2
  have s1 := Add_seqOf_self grow σ σ1 id k v1 hσ hid e1
  have ok1 := Add_storeOk grow σ σ1 id k v1 hσ e1
  have l1 := Add_maps_length grow σ σ1 id k v1 e1
  have s2 := Add_seqOf_self grow σ1 σ2 id k v2 ok1 (by omega) e2
  have hv1 : valuesOf σ1 (some id) k = [v1] := by
    unfold valuesOf; rw [s1, hk]; rfl
  rw [hv1] at s2
  have hv2 : valuesOf σ2 (some id) k = [v1, v2] := by
    unfold valuesOf; rw [s2]; rfl
  refine ⟨σ1, σ2, e1, e2, ?_, s2, ?_⟩
  · rw [Get_eq, hv2]; rfl
  · rw [hv2]; rfl

theorem Set_seqOf_self (σ σ1 : Store) (id : Nat) (k v : String)
    (hid : id < σ.maps.length) (h : Set σ (some id) k v = .ok σ1) :
    seqOf σ1 (some id) k = some [v] := by
  rw [Set_eq] at h
  injection h with h
  subst h
  unfold seqOf
  rw [deref_set, if_pos ⟨rfl, hid⟩, AList.lookup_insert]
  simp only [Option.map_some']
  rw [readSlice_fresh _ _ _ _ (by simp)]
  rfl

theorem Set_maps_length (σ σ1 : Store) (id : Nat) (k v : String)
    (h : Set σ (some id) k v = .ok σ1) : σ1.maps.length = σ.maps.length := by
  rw [Set_eq] at h
  injection h with h
  subst h
  simp

/-- C3: on an initialized header, `Set(k, v)` succeeds and leaves for `k` the
one-element sequence `[v]`, whatever was stored before; so after
`Set(k, v1); Set(k, v2)` the sequence for `k` is `[v2]`. -/
theorem Set_replaces (σ : Store) (id : Nat) (k : String) (hid : id < σ.maps.length) :
    (∀ v, ∃ σ1, Set σ (some id) k v = .ok σ1 ∧ seqOf σ1 (some id) k = some [v]) ∧
    (∀ v1 v2, ∃ σ1 σ2, Set σ (some id) k v1 = .ok σ1 ∧ Set σ1 (some id) k v2 = .ok σ2 ∧
      seqOf σ2 (some id) k = some [v2]) := by
  constructor
  · intro v
    exact ⟨_, Set_eq σ id k v, Set_seqOf_self σ _ id k v hid (Set_eq σ id k v)⟩
  · intro v1 v2
    have e1 := Set_eq σ id k v1
    have l1 := Set_maps_length σ _ id k v1 e1
    exact ⟨_, _, e1, Set_eq _ id k v2,
      Set_seqOf_self _ _ id k v2 (by omega) (Set_eq _ id k v2)⟩

/-- C4: `Get(k)` returns the first element of the sequence stored for `k`
when that sequence is not empty, and the empty string when `k` is absent,
when its sequence is empty, and when the header is the nil map. -/
theorem Get_first (σ : Store) (h : Header) (k : String) :
    (∀ x xs, seqOf σ h k = some (x :: xs) → Get σ h k = .ok x) ∧
    (seqOf σ h k = none → Get σ h k = .ok "") ∧
    (seqOf σ h k = some [] → Get σ h k = .ok "") ∧
    Get σ none k = .ok "" := by
  refine ⟨?_, ?_, ?_, rfl⟩
  · intro x xs hs
    rw [Get_eq]; unfold valuesOf; rw [hs]; rfl
  · intro hs
    rw [Get_eq]; unfold valuesOf; rw [hs]; rfl
  · intro hs
    rw [Get_eq]; unfold valuesOf; rw [hs]; rfl

theorem Contains_eq (σ : Store) (h : Header) (k : String) :
    Contains σ h k =
      match seqOf σ h k with
      | none => .ok ("", false)
      | some [] => .error Panic.indexOutOfRange
      | some (x :: _) => .ok (x, true) := by
  unfold Contains
  split
  · rename_i hn
    subst hn
    rfl
  · unfold seqOf
    cases (deref σ h).lookup k with
    | none => rfl
    | some s =>
      simp only [Option.map_some']
      unfold sliceIndex readSlice
      cases hl : s.len with
      | zero => rfl
      | succ n =>
        rw [if_pos (Nat.succ_pos n), List.range_succ_eq_map]
        rfl

/-! ## `Del` -/

theorem erase_absent (m : HMap) (k : String) (h : m.lookup k = none) : m.erase k = m := by
  apply AList.ext
  exact List.kerase_of_not_mem_keys (AList.lookup_eq_none.mp h)

theorem set_getD_self (l : List HMap) (id : Nat) : l.set id (l.getD id ∅) = l := by
  apply List.ext_getElem?
  intro i
  rw [List.getElem?_set]
  split
  · rename_i e
    subst e
    split
    · rename_i hlt
      simp [List.getD_eq_getElem?_getD, List.getElem?_eq_getElem hlt]
    · rename_i hlt
      rw [List.getElem?_eq_none (Nat.le_of_not_lt hlt)]
  · rfl

theorem deref_dangling (σ : Store) (id : Nat) (h : σ.maps.length ≤ id) :
    deref σ (some id) = ∅ := by
  simp [deref, List.getD_eq_getElem?_getD, List.getElem?_eq_none h]

theorem deref_Del (σ : Store) (h : Header) (k : String) :
    deref (Del σ h k) h = (deref σ h).erase k := by
  cases h with
  | none => rfl
  | some id =>
    show deref { arrays := σ.arrays, maps := σ.maps.set id ((deref σ (some id)).erase k) }
      (some id) = _
    rw [deref_set]
    split
    · rfl
    · rename_i hn
      have : σ.maps.length ≤ id := by
        by_contra hc
        exact hn ⟨rfl, Nat.lt_of_not_le hc⟩
      rw [deref_dangling σ id this]
      rfl

theorem seqOf_Del_self (σ : Store) (h : Header) (k : String) :
    seqOf (Del σ h k) h k = none := by
  unfold seqOf
  rw [deref_Del, AList.lookup_erase]
  rfl

theorem seqOf_Del_ne (σ : Store) (h : Header) (k k' : String) (hne : k' ≠ k) :
    seqOf (Del σ h k) h k' = seqOf σ h k' := by
  unfold seqOf
  rw [deref_Del, AList.lookup_erase_ne hne]
  cases h <;> rfl

theorem Del_absent (σ : Store) (h : Header) (k : String) (ha : seqOf σ h k = none) :
    Del σ h k = σ := by
  cases h with
  | none => rfl
  | some id =>
    have hl : (deref σ (some id)).lookup k = none := by
      unfold seqOf at ha
      exact Option.map_eq_none'.mp ha
    show Store.mk σ.arrays (σ.maps.set id ((deref σ (some id)).erase k)) = σ
    rw [erase_absent _ _ hl]
    show Store.mk σ.arrays (σ.maps.set id (σ.maps.getD id ∅)) = σ
    rw [set_getD_self]

/-- C6: after `Del(k)` the key `k` is no longer a key of the header, so
`Contains(k)` returns `("", false)` and `Get(k)` returns `""`, in particular
after `Add(k, v); Del(k)`; and `Del(k)` changes nothing when `k` was absent. -/
theorem Del_removes (grow : Nat → Nat) (σ : Store) (h : Header) (id : Nat) (k v : String) :
    seqOf (Del σ h k) h k = none ∧
    Contains (Del σ h k) h k = .ok ("", false) ∧
    Get (Del σ h k) h k = .ok "" ∧
    (∃ σ1, Add grow σ (some id) k v = .ok σ1 ∧
      Contains (Del σ1 (some id) k) (some id) k = .ok ("", false)) ∧
    (seqOf σ h k = none → Del σ h k = σ) := by
  refine ⟨seqOf_Del_self σ h k, ?_, ?_, ⟨_, Add_eq grow σ id k v, ?_⟩, Del_absent σ h k⟩
  · rw [Contains_eq, seqOf_Del_self]
  · rw [Get_eq]; unfold valuesOf; rw [seqOf_Del_self]; rfl
  · rw [Contains_eq, seqOf_Del_self]

/-! ## One key at a time -/

theorem goAppend_frame (grow : Nat → Nat) (a : Arrays) (s : Slice) (v : String) (t : Slice)
    (ht : sliceOk a t) (hn : ¬ spareCellIn s t) :
    readSlice (goAppend grow a s v).1 t = readSlice a t := by
  apply readSlice_congr
  intro i hi
  apply goAppend_cell
  · exact sliceOk_arr_lt a t ht (by have := ht.1; omega)
  · rintro ⟨h1, h2, h3⟩
    exact hn ⟨h1, h2, by omega, by omega⟩

theorem seqOf_congr (σ σ1 : Store) (h : Header) (k : String)
    (hm : (deref σ1 h).lookup k = (deref σ h).lookup k)
    (hr : ∀ s, (deref σ h).lookup k = some s → readSlice σ1.arrays s = readSlice σ.arrays s) :
    seqOf σ1 h k = seqOf σ h k := by
  unfold seqOf
  rw [hm]
  cases hl : (deref σ h).lookup k with
  | none => rfl
  | some s => simp only [Option.map_some', hr s hl]

theorem Add_seqOf_ne (grow : Nat → Nat) (σ σ1 : Store) (id : Nat) (k k' v : String)
    (hσ : storeOk σ) (hne : k' ≠ k)
    (hs : ¬ spareCellIn (mapIndex (deref σ (some id)) k) (mapIndex (deref σ (some id)) k'))
    (h : Add grow σ (some id) k v = .ok σ1) :
    seqOf σ1 (some id) k' = seqOf σ (some id) k' := by
  rw [Add_eq] at h
  injection h with h
  subst h
  apply seqOf_congr
  · rw [deref_set]
    split
    · rw [AList.lookup_insert_ne hne]
    · rfl
  · intro s hl
    apply goAppend_frame
    · exact mapOk_lookup _ _ _ _ (storeOk_deref σ (some id) hσ) hl
    · have : mapIndex (deref σ (some id)) k' = s := by
        unfold mapIndex; rw [hl]; rfl
      rw [this] at hs
      exact hs

theorem Set_seqOf_ne (σ σ1 : Store) (id : Nat) (k k' v : String)
    (hσ : storeOk σ) (hne : k' ≠ k) (h : Set σ (some id) k v = .ok σ1) :
    seqOf σ1 (some id) k' = seqOf σ (some id) k' := by
  rw [Set_eq] at h
  injection h with h
  subst h
  apply seqOf_congr
  · rw [deref_set]
    split
    · rw [AList.lookup_insert_ne hne]
    · rfl
  · intro s hl
    exact readSlice_append_one _ _ _ (mapOk_lookup _ _ _ _ (storeOk_deref σ (some id) hσ) hl)

/-- C7 (as amended): keys are compared exactly and, on an initialized header
of a well-formed store, `Set(k, v)` and `Del(k)` leave the sequence of every
other key `k'` as it was; `Add(k, v)` does too unless the first spare cell of
the slice stored for `k` is a visible cell of the slice stored for `k'`.  On
an empty header, after `Add("Content-Length", "5")`, `Get("content-length")`
returns `""`. -/
theorem mutation_touches_one_key (grow : Nat → Nat) (σ : Store) (id : Nat) (k k' v : String)
    (hσ : storeOk σ) (hne : k' ≠ k) :
    (¬ spareCellIn (mapIndex (deref σ (some id)) k) (mapIndex (deref σ (some id)) k') →
      ∃ σ1, Add grow σ (some id) k v = .ok σ1 ∧
        seqOf σ1 (some id) k' = seqOf σ (some id) k') ∧
    (∃ σ1, Set σ (some id) k v = .ok σ1 ∧ seqOf σ1 (some id) k' = seqOf σ (some id) k') ∧
    seqOf (Del σ (some id) k) (some id) k' = seqOf σ (some id) k' ∧
    (∃ σ1, Add grow emptyStore (some 0) "Content-Length" "5" = .ok σ1 ∧
      Get σ1 (some 0) "content-length" = .ok "") := by
  refine ⟨fun hs => ⟨_, Add_eq grow σ id k v, ?_⟩, ⟨_, Set_eq σ id k v, ?_⟩,
    seqOf_Del_ne σ (some id) k k' hne, ⟨_, Add_eq grow emptyStore 0 _ _, ?_⟩⟩
  · exact Add_seqOf_ne grow σ _ id k k' v hσ hne hs (Add_eq grow σ id k v)
  · exact Set_seqOf_ne σ _ id k k' v hσ hne (Set_eq σ id k v)
  · rfl

/-- C7 (as stated) fails: in the header `{"a": s[:1], "b": s}` with
`s = ["1", ""]`, `Add("a", "x")` turns the sequence of `"b"` from `["1", ""]`
into `["1", "x"]`. -/
theorem Add_can_change_another_key :
    storeOk sharedStore ∧ 0 < sharedStore.maps.length ∧ "b" ≠ "a" ∧
    seqOf sharedStore (some 0) "b" = some ["1", ""] ∧
    ∃ σ1, Add double sharedStore (some 0) "a" "x" = .ok σ1 ∧
      seqOf σ1 (some 0) "b" = some ["1", "x"] :=
  ⟨by decide, by decide, by decide, by decide, _, rfl, by decide⟩

/-- C7 (as amended) at the header `{"k": ["a", "a"]}` and the absent key
`"j"`. -/
theorem mutation_touches_one_key_witness :
    storeOk dupStore ∧ "j" ≠ "k" ∧
    ¬ spareCellIn (mapIndex (deref dupStore (some 0)) "k") (mapIndex (deref dupStore (some 0)) "j") ∧
    (∃ σ1, Add double dupStore (some 0) "k" "v" = .ok σ1 ∧
      seqOf σ1 (some 0) "j" = seqOf dupStore (some 0) "j") :=
  ⟨by decide, by decide, by decide,
    (mutation_touches_one_key double dupStore 0 "k" "j" "v" (by decide) (by decide)).1 (by decide)⟩

/-- C5: `Contains` fails with an index out of range on a key that is present
with a sequence of length zero, where its documentation promises
`("", false)`. -/
theorem Contains_fails_on_empty_sequence :
    seqOf emptySeqStore (some 0) "k" = some [] ∧
    Get emptySeqStore (some 0) "k" = .ok "" ∧
    Contains emptySeqStore (some 0) "k" = .error Panic.indexOutOfRange :=
  ⟨by decide, rfl, rfl⟩

/-! ## `copy` and the loop body of `Clone` -/

theorem length_writeCells (a : Arrays) (arr i : Nat) (vs : List String) :
    (writeCells a arr i vs).length = a.length := by
  induction vs generalizing a i with
  | nil => rfl
  | cons v vs ih => simp only [writeCells, ih, length_writeCell]

theorem length_getD_writeCells (a : Arrays) (arr i : Nat) (vs : List String) (arr' : Nat) :
    ((writeCells a arr i vs).getD arr' []).length = (a.getD arr' []).length := by
  induction vs generalizing a i with
  | nil => rfl
  | cons v vs ih => simp only [writeCells, ih, length_getD_writeCell]

theorem cell_writeCells_other (a : Arrays) (arr i : Nat) (vs : List String) (arr' j : Nat)
    (h : arr' ≠ arr ∨ j < i) : cell (writeCells a arr i vs) arr' j = cell a arr' j := by
  induction vs generalizing a i with
  | nil => rfl
  | cons v vs ih =>
    simp only [writeCells]
    rw [ih _ _ (by omega), cell_writeCell]
    have : ¬ (arr' = arr ∧ j = i ∧ arr < a.length ∧ i < (a.getD arr []).length) := by
      rintro ⟨h1, h2, -⟩
      omega
    rw [if_neg this]

theorem cell_writeCells_in (a : Arrays) (arr i : Nat) (vs : List String) (j : Nat)
    (harr : arr < a.length) (hb : i + vs.length ≤ (a.getD arr []).length)
    (hj : j < vs.length) :
    cell (writeCells a arr i vs) arr (i + j) = vs.getD j "" := by
  induction vs generalizing a i j with
  | nil => simp at hj
  | cons v vs ih =>
    simp only [writeCells]
    simp only [List.length_cons] at hb hj
    cases j with
    | zero =>
      rw [cell_writeCells_other _ _ _ _ _ _ (Or.inr (by omega)), cell_writeCell,
        if_pos ⟨rfl, rfl, harr, by omega⟩]
      rfl
    | succ j =>
      have := ih (writeCell a arr i v) (i + 1) j (by rw [length_writeCell]; exact harr)
        (by rw [length_getD_writeCell]; omega) (by omega)
      rw [show i + (j + 1) = i + 1 + j by omega, this]
      rfl

theorem sliceOk_writeCells (a : Arrays) (arr i : Nat) (vs : List String) (s : Slice)
    (h : sliceOk a s) : sliceOk (writeCells a arr i vs) s := by
  unfold sliceOk at *
  rw [length_getD_writeCells]
  exact h

/-- The arrays after one round of the loop of `Clone`, for an entry whose
slice is not empty. -/
theorem cloneStep_pos (hc : Nat) (τ : Store) (e : Sigma (fun _ : String => Slice))
    (h : 0 < e.2.len) :
    cloneStep hc τ e =
      { arrays := goCopy (τ.arrays ++ [List.replicate e.2.len ""])
          ⟨τ.arrays.length, 0, e.2.len, e.2.len⟩ e.2,
        maps := τ.maps.set hc ((τ.maps.getD hc ∅).insert e.1
          ⟨τ.arrays.length, 0, e.2.len, e.2.len⟩) } := by
  unfold cloneStep
  rw [if_pos h]
  rfl

theorem cloneStep_zero (hc : Nat) (τ : Store) (e : Sigma (fun _ : String => Slice))
    (h : ¬ 0 < e.2.len) : cloneStep hc τ e = τ := by
  unfold cloneStep
  rw [if_neg h]

theorem goCopy_fresh_cell (a : Arrays) (n : Nat) (src : Slice) (arr j : Nat)
    (harr : arr < a.length) :
    cell (goCopy (a ++ [List.replicate n ""]) ⟨a.length, 0, n, n⟩ src) arr j = cell a arr j := by
  unfold goCopy
  rw [cell_writeCells_other _ _ _ _ _ _ (Or.inl (Nat.ne_of_lt harr)), cell_append_one,
    if_neg (Nat.ne_of_lt harr)]

theorem goCopy_fresh_ok (a : Arrays) (n : Nat) (src : Slice) (t : Slice) (h : sliceOk a t) :
    sliceOk (goCopy (a ++ [List.replicate n ""]) ⟨a.length, 0, n, n⟩ src) t := by
  unfold goCopy
  exact sliceOk_writeCells _ _ _ _ _ (sliceOk_append_one _ _ _ h)

theorem goCopy_fresh_new_ok (a : Arrays) (n : Nat) (src : Slice) :
    sliceOk (goCopy (a ++ [List.replicate n ""]) ⟨a.length, 0, n, n⟩ src)
      ⟨a.length, 0, n, n⟩ := by
  unfold goCopy
  apply sliceOk_writeCells
  refine ⟨Nat.le_refl _, ?_⟩
  rw [getD_append_one, if_pos rfl]
  simp

theorem goCopy_fresh_read (a : Arrays) (src : Slice) (h : sliceOk a src) :
    readSlice (goCopy (a ++ [List.replicate src.len ""]) ⟨a.length, 0, src.len, src.len⟩ src)
      ⟨a.length, 0, src.len, src.len⟩ = readSlice a src := by
  unfold goCopy
  simp only [Nat.min_self]
  rw [readSlice_append_one _ _ _ h]
  have hl : (readSlice a src).length = src.len := length_readSlice a src
  rw [List.take_of_length_le (Nat.le_of_eq hl)]
  apply List.ext_getElem
  · rw [length_readSlice, hl]
  · intro i h1 h2
    rw [length_readSlice] at h1
    simp only at h1
    have hc := cell_writeCells_in (a ++ [List.replicate src.len ""]) a.length 0
      (readSlice a src) i (by simp) (by rw [getD_append_one, if_pos rfl]; simp [hl])
      (by omega)
    have e1 : (readSlice (writeCells (a ++ [List.replicate src.len ""]) a.length 0
        (readSlice a src)) ⟨a.length, 0, src.len, src.len⟩)[i] =
        cell (writeCells (a ++ [List.replicate src.len ""]) a.length 0 (readSlice a src))
          a.length (0 + i) := by
      simp [readSlice]
    rw [e1, hc, List.getD_eq_getElem?_getD, List.getElem?_eq_getElem h2]
    rfl

/-! ## The loop of `Clone` -/

theorem arraysExtend_refl (a : Arrays) : arraysExtend a a :=
  ⟨Nat.le_refl _, fun _ _ _ => rfl, fun _ h => h⟩

theorem arraysExtend_trans (a b c : Arrays) (h1 : arraysExtend a b) (h2 : arraysExtend b c) :
    arraysExtend a c :=
  ⟨Nat.le_trans h1.1 h2.1,
    fun arr j h => by rw [h2.2.1 arr j (Nat.lt_of_lt_of_le h h1.1), h1.2.1 arr j h],
    fun t h => h2.2.2 t (h1.2.2 t h)⟩

theorem arraysExtend_read (a b : Arrays) (h : arraysExtend a b) (t : Slice) (ht : sliceOk a t) :
    readSlice b t = readSlice a t := by
  apply readSlice_congr
  intro i hi
  exact h.2.1 _ _ (sliceOk_arr_lt a t ht (by have := ht.1; omega))

theorem arraysExtend_append_one (a : Arrays) (x : List String) : arraysExtend a (a ++ [x]) :=
  ⟨by simp, fun arr j h => by rw [cell_append_one, if_neg (Nat.ne_of_lt h)],
    fun t h => sliceOk_append_one a x t h⟩

theorem arraysExtend_goCopy (a : Arrays) (n : Nat) (src : Slice) :
    arraysExtend a (goCopy (a ++ [List.replicate n ""]) ⟨a.length, 0, n, n⟩ src) :=
  ⟨by unfold goCopy; rw [length_writeCells]; simp,
    fun arr j h => goCopy_fresh_cell a n src arr j h,
    fun t h => goCopy_fresh_ok a n src t h⟩

theorem cloneStep_frame (hc : Nat) (τ : Store) (e : Sigma (fun _ : String => Slice))
    (hτ : storeOk τ) :
    storeOk (cloneStep hc τ e) ∧ (cloneStep hc τ e).maps.length = τ.maps.length ∧
    arraysExtend τ.arrays (cloneStep hc τ e).arrays ∧
    (∀ j, j ≠ hc → (cloneStep hc τ e).maps.getD j ∅ = τ.maps.getD j ∅) := by
  by_cases h : 0 < e.2.len
  · rw [cloneStep_pos hc τ e h]
    have hx := arraysExtend_goCopy τ.arrays e.2.len e.2
    refine ⟨?_, by simp, hx, ?_⟩
    · apply storeOk_set _ τ
      · intro x hxm
        exact mapOk_mono _ _ _ hx.2.2 (hτ x hxm)
      · apply mapOk_insert
        · exact mapOk_mono _ _ _ hx.2.2 (storeOk_deref τ (some hc) hτ)
        · exact goCopy_fresh_new_ok _ _ _
    · intro j hj
      simp only
      rw [getD_set_maps, if_neg (fun hh => hj hh.1)]
  · rw [cloneStep_zero hc τ e h]
    exact ⟨hτ, rfl, arraysExtend_refl _, fun _ _ => rfl⟩

theorem foldl_cloneStep_frame (hc : Nat) (es : List (Sigma (fun _ : String => Slice)))
    (τ : Store) (hτ : storeOk τ) :
    storeOk (es.foldl (cloneStep hc) τ) ∧
    (es.foldl (cloneStep hc) τ).maps.length = τ.maps.length ∧
    arraysExtend τ.arrays (es.foldl (cloneStep hc) τ).arrays ∧
    (∀ j, j ≠ hc → (es.foldl (cloneStep hc) τ).maps.getD j ∅ = τ.maps.getD j ∅) := by
  induction es generalizing τ with
  | nil => exact ⟨hτ, rfl, arraysExtend_refl _, fun _ _ => rfl⟩
  | cons e es ih =>
    simp only [List.foldl_cons]
    obtain ⟨s1, s2, s3, s4⟩ := cloneStep_frame hc τ e hτ
    obtain ⟨f1, f2, f3, f4⟩ := ih (cloneStep hc τ e) s1
    exact ⟨f1, by rw [f2, s2], arraysExtend_trans _ _ _ s3 f3,
      fun j hj => by rw [f4 j hj, s4 j hj]⟩

/-- What the map being filled holds under `k` after one round of the loop. -/
theorem cloneStep_lookup (hc : Nat) (τ : Store) (e : Sigma (fun _ : String => Slice))
    (k : String) (hτ : storeOk τ) (hhc : hc < τ.maps.length) (he : sliceOk τ.arrays e.2) :
    (((cloneStep hc τ e).maps.getD hc ∅).lookup k).map (readSlice (cloneStep hc τ e).arrays) =
      if e.1 = k ∧ 0 < e.2.len then some (readSlice τ.arrays e.2)
      else ((τ.maps.getD hc ∅).lookup k).map (readSlice τ.arrays) := by
  by_cases h : 0 < e.2.len
  · have hx := arraysExtend_goCopy τ.arrays e.2.len e.2
    rw [cloneStep_pos hc τ e h]
    simp only
    rw [getD_set_maps, if_pos ⟨rfl, hhc⟩]
    by_cases hk : e.1 = k
    · subst hk
      rw [AList.lookup_insert, if_pos ⟨rfl, h⟩]
      simp only [Option.map_some']
      rw [goCopy_fresh_read _ _ he]
    · rw [AList.lookup_insert_ne (fun hh => hk hh.symm), if_neg (fun hh => hk hh.1)]
      cases hl : (τ.maps.getD hc ∅).lookup k with
      | none => rfl
      | some s =>
        simp only [Option.map_some']
        rw [arraysExtend_read _ _ hx s
          (mapOk_lookup _ _ _ _ (storeOk_deref τ (some hc) hτ) hl)]
  · rw [cloneStep_zero hc τ e h, if_neg (fun hh => h hh.2)]

theorem foldl_cloneStep_lookup (hc : Nat) (es : List (Sigma (fun _ : String => Slice)))
    (τ : Store) (k : String) (hτ : storeOk τ) (hhc : hc < τ.maps.length)
    (hes : ∀ e ∈ es, sliceOk τ.arrays e.2) (hnd : es.NodupKeys) :
    (((es.foldl (cloneStep hc) τ).maps.getD hc ∅).lookup k).map
        (readSlice (es.foldl (cloneStep hc) τ).arrays) =
      match es.dlookup k with
      | some s =>
        if 0 < s.len then some (readSlice τ.arrays s)
        else ((τ.maps.getD hc ∅).lookup k).map (readSlice τ.arrays)
      | none => ((τ.maps.getD hc ∅).lookup k).map (readSlice τ.arrays) := by
  induction es generalizing τ with
  | nil => rfl
  | cons e es ih =>
    simp only [List.foldl_cons]
    obtain ⟨s1, s2, s3, -⟩ := cloneStep_frame hc τ e hτ
    have he := hes e (List.mem_cons_self _ _)
    rw [List.nodupKeys_cons] at hnd
    rw [ih (cloneStep hc τ e) s1 (by omega)
      (fun x hx => s3.2.2 _ (hes x (List.mem_cons_of_mem _ hx))) hnd.2,
      cloneStep_lookup hc τ e k hτ hhc he]
    obtain ⟨ek, ev⟩ := e
    by_cases hk : ek = k
    · subst hk
      rw [List.dlookup_cons_eq, List.dlookup_eq_none.mpr hnd.1]
      simp only [true_and]
    · rw [List.dlookup_cons_ne _ _ (fun hh => hk hh.symm)]
      simp only [hk, false_and, if_false]
      cases hd : es.dlookup k with
      | none => rfl
      | some s =>
        simp only
        have hs : sliceOk τ.arrays s :=
          hes ⟨k, s⟩ (List.mem_cons_of_mem _ (List.of_mem_dlookup hd))
        rw [arraysExtend_read _ _ s3 s hs]

/-- Every slice that the loop of `Clone` stores lies on an array allocated by
the loop. -/
theorem foldl_cloneStep_fresh (hc : Nat) (es : List (Sigma (fun _ : String => Slice)))
    (τ : Store) (k : String) (t : Slice) (hhc : hc < τ.maps.length)
    (hl : ((es.foldl (cloneStep hc) τ).maps.getD hc ∅).lookup k = some t) :
    (τ.maps.getD hc ∅).lookup k = some t ∨ τ.arrays.length ≤ t.arr := by
  induction es generalizing τ with
  | nil => exact Or.inl hl
  | cons e es ih =>
    simp only [List.foldl_cons] at hl
    by_cases h : 0 < e.2.len
    · rw [cloneStep_pos hc τ e h] at hl
      have hx := arraysExtend_goCopy τ.arrays e.2.len e.2
      rcases ih _ (by simp; exact hhc) hl with h1 | h1
      · simp only at h1
        rw [getD_set_maps, if_pos ⟨rfl, hhc⟩] at h1
        by_cases hk : e.1 = k
        · subst hk
          rw [AList.lookup_insert] at h1
          injection h1 with h1
          subst h1
          exact Or.inr (Nat.le_refl _)
        · rw [AList.lookup_insert_ne (fun hh => hk hh.symm)] at h1
          exact Or.inl h1
      · exact Or.inr (Nat.le_trans hx.1 h1)
    · rw [cloneStep_zero hc τ e h] at hl
      exact ih τ hhc hl

/-! ## The content of a clone -/

theorem Clone_fst (σ : Store) (h : Header) :
    (Clone σ h).1 = (deref σ h).entries.foldl (cloneStep σ.maps.length)
      { arrays := σ.arrays, maps := σ.maps ++ [∅] } := rfl

theorem Clone_snd (σ : Store) (h : Header) : (Clone σ h).2 = some σ.maps.length := rfl

theorem storeOk_push (σ : Store) (hσ : storeOk σ) :
    storeOk { arrays := σ.arrays, maps := σ.maps ++ [∅] } := by
  intro m hm
  rcases List.mem_append.mp hm with h1 | h1
  · exact hσ m h1
  · rw [List.mem_singleton.mp h1]
    exact mapOk_empty _

theorem getD_push_new (l : List HMap) : (l ++ [∅]).getD l.length ∅ = ∅ := by
  simp [List.getD_eq_getElem?_getD]

theorem getD_push_old (l : List HMap) (j : Nat) : (l ++ [∅]).getD j ∅ = l.getD j ∅ := by
  simp only [List.getD_eq_getElem?_getD]
  rcases Nat.lt_trichotomy j l.length with h | h | h
  · rw [List.getElem?_append_left h]
  · subst h; simp
  · rw [List.getElem?_eq_none (by simp; omega), List.getElem?_eq_none (by omega)]

theorem Clone_seqOf (σ : Store) (h : Header) (k : String) (hσ : storeOk σ) :
    seqOf (Clone σ h).1 (Clone σ h).2 k =
      match seqOf σ h k with
      | some (x :: xs) => some (x :: xs)
      | _ => none := by
  have hl := foldl_cloneStep_lookup σ.maps.length (deref σ h).entries
    { arrays := σ.arrays, maps := σ.maps ++ [∅] } k (storeOk_push σ hσ) (by simp)
    (fun e he => storeOk_deref σ h hσ e he) (deref σ h).nodupKeys
  simp only [getD_push_new] at hl
  have e0 : seqOf (Clone σ h).1 (Clone σ h).2 k =
      ((((deref σ h).entries.foldl (cloneStep σ.maps.length)
        { arrays := σ.arrays, maps := σ.maps ++ [∅] }).maps.getD σ.maps.length ∅).lookup k).map
        (readSlice ((deref σ h).entries.foldl (cloneStep σ.maps.length)
          { arrays := σ.arrays, maps := σ.maps ++ [∅] }).arrays) := rfl
  rw [e0, hl]
  have e1 : (deref σ h).entries.dlookup k = (deref σ h).lookup k := rfl
  rw [e1]
  unfold seqOf
  cases (deref σ h).lookup k with
  | none => rfl
  | some s =>
    simp only [Option.map_some']
    by_cases h0 : 0 < s.len
    · rw [if_pos h0]
      have hlen := length_readSlice σ.arrays s
      cases hr : readSlice σ.arrays s with
      | nil => rw [hr] at hlen; simp at hlen; omega
      | cons x xs => rfl
    · rw [if_neg h0, readSlice_len_zero _ _ (by omega)]
      rfl

/-- C8: in a well-formed store, the keys of `h.Clone()` are the keys of `h`
whose sequence is not empty, each with the same sequence as in `h`; so when
no key of `h` has an empty sequence, the clone has the content of `h`. -/
theorem Clone_content (σ : Store) (h : Header) (hσ : storeOk σ) :
    (∀ k, seqOf (Clone σ h).1 (Clone σ h).2 k =
      match seqOf σ h k with
      | some (x :: xs) => some (x :: xs)
      | _ => none) ∧
    ((∀ k, seqOf σ h k ≠ some []) →
      ∀ k, seqOf (Clone σ h).1 (Clone σ h).2 k = seqOf σ h k) := by
  refine ⟨fun k => Clone_seqOf σ h k hσ, fun hne k => ?_⟩
  rw [Clone_seqOf σ h k hσ]
  have := hne k
  cases hs : seqOf σ h k with
  | none => rfl
  | some l =>
    cases l with
    | nil => exact absurd hs this
    | cons x xs => rfl

/-- C8 at the header `{"a": ["x", "y"], "e": []string{}}`: the clone keeps
`"a"` and drops `"e"`. -/
theorem Clone_content_witness :
    storeOk mixedStore ∧
    seqOf (Clone mixedStore (some 0)).1 (Clone mixedStore (some 0)).2 "a" = some ["x", "y"] ∧
    seqOf (Clone mixedStore (some 0)).1 (Clone mixedStore (some 0)).2 "e" = none ∧
    seqOf mixedStore (some 0) "e" = some [] :=
  ⟨by decide, (Clone_content mixedStore (some 0) (by decide)).1 "a",
    (Clone_content mixedStore (some 0) (by decide)).1 "e", by decide⟩

/-! ## Separate headers -/

theorem deref_set_other (σ : Store) (a : Arrays) (id : Nat) (m : HMap) (y : Header)
    (hy : y ≠ some id) :
    deref { arrays := a, maps := σ.maps.set id m } y = deref σ y := by
  rw [deref_set, if_neg (fun hh => hy hh.1)]

theorem lookup_deref_set (σ : Store) (a : Arrays) (id : Nat) (m : HMap) (k : String) (s : Slice)
    (hl : (deref { arrays := a, maps := σ.maps.set id m } (some id)).lookup k = some s) :
    m.lookup k = some s ∨ (deref σ (some id)).lookup k = some s := by
  rw [deref_set] at hl
  split at hl
  · exact Or.inl hl
  · exact Or.inr hl

theorem goAppend_arr (grow : Nat → Nat) (a : Arrays) (s : Slice) (v : String) :
    (s.len < s.cap ∧ (goAppend grow a s v).2.arr = s.arr) ∨
      (goAppend grow a s v).2.arr = a.length := by
  unfold goAppend
  split
  · rename_i h; exact Or.inl ⟨h, rfl⟩
  · exact Or.inr rfl

theorem mapIndex_cap_pos (m : HMap) (k : String) (h : 0 < (mapIndex m k).cap) :
    m.lookup k = some (mapIndex m k) := by
  unfold mapIndex at *
  cases hl : m.lookup k with
  | none => rw [hl] at h; simp [nilSlice] at h
  | some s => rfl

theorem spareCellIn_cap (s t : Slice) (ht : t.len ≤ t.cap) (h : spareCellIn s t) :
    0 < s.cap ∧ 0 < t.cap ∧ t.arr = s.arr := by
  obtain ⟨h1, h2, h3, h4⟩ := h
  exact ⟨by omega, by omega, h2⟩

/-- A call on the header `x` leaves a separate header `y` as it was, and the
two stay separate. -/
theorem applyOp_separate (grow : Nat → Nat) (σ σ1 : Store) (x y : Header) (op : Op)
    (hσ : storeOk σ) (hsep : separate σ x y) (h : applyOp grow σ x op = .ok σ1) :
    storeOk σ1 ∧ separate σ1 x y ∧ ∀ k, seqOf σ1 y k = seqOf σ y k := by
  cases x with
  | none =>
    cases op with
    | add k v => cases h
    | set k v => cases h
    | del k =>
      injection h with h
      subst h
      exact ⟨hσ, hsep, fun _ => rfl⟩
  | some id =>
    have hy : y ≠ some id := fun e => hsep.1 e.symm
    have hmy := storeOk_deref σ y hσ
    have hmx := storeOk_deref σ (some id) hσ
    cases op with
    | add k v =>
      have hs := mapOk_mapIndex σ.arrays (deref σ (some id)) k hmx
      have hok := Add_storeOk grow σ σ1 id k v hσ h
      rw [show applyOp grow σ (some id) (Op.add k v) = Add grow σ (some id) k v from rfl,
        Add_eq] at h
      injection h with h
      subst h
      refine ⟨hok, ⟨hsep.1, ?_⟩, ?_⟩
      · intro k1 s k2 t h1 h2 c1 c2
        rw [deref_set_other _ _ _ _ _ hy] at h2
        have ht := mapOk_lookup _ _ _ _ hmy h2
        have htl := sliceOk_arr_lt _ _ ht c2
        rcases lookup_deref_set _ _ _ _ _ _ h1 with h3 | h3
        · by_cases hk : k1 = k
          · subst hk
            rw [AList.lookup_insert] at h3
            injection h3 with h3
            subst h3
            rcases goAppend_arr grow σ.arrays (mapIndex (deref σ (some id)) k1) v with g | g
            · rw [g.2]
              exact hsep.2 k1 _ k2 t (mapIndex_cap_pos _ _ (by omega)) h2 (by omega) c2
            · rw [g]; omega
          · rw [AList.lookup_insert_ne hk] at h3
            exact hsep.2 k1 s k2 t h3 h2 c1 c2
        · exact hsep.2 k1 s k2 t h3 h2 c1 c2
      · intro k'
        apply seqOf_congr
        · rw [deref_set_other _ _ _ _ _ hy]
        · intro t hl
          have ht := mapOk_lookup _ _ _ _ hmy hl
          apply goAppend_frame _ _ _ _ _ ht
          intro hsp
          obtain ⟨c1, c2, c3⟩ := spareCellIn_cap _ _ ht.1 hsp
          exact hsep.2 k _ k' t (mapIndex_cap_pos _ _ c1) hl c1 c2 c3.symm
    | set k v =>
      rw [show applyOp grow σ (some id) (Op.set k v) = Set σ (some id) k v from rfl,
        Set_eq] at h
      injection h with h
      subst h
      have hx := arraysExtend_append_one σ.arrays [v]
      refine ⟨?_, ⟨hsep.1, ?_⟩, ?_⟩
      · apply storeOk_set _ σ
        · intro m hm
          exact mapOk_mono _ _ _ hx.2.2 (hσ m hm)
        · apply mapOk_insert
          · exact mapOk_mono _ _ _ hx.2.2 hmx
          · refine ⟨Nat.le_refl _, ?_⟩
            rw [getD_append_one, if_pos rfl]
            simp
      · intro k1 s k2 t h1 h2 c1 c2
        rw [deref_set_other _ _ _ _ _ hy] at h2
        have ht := mapOk_lookup _ _ _ _ hmy h2
        have htl := sliceOk_arr_lt _ _ ht c2
        rcases lookup_deref_set _ _ _ _ _ _ h1 with h3 | h3
        · by_cases hk : k1 = k
          · subst hk
            rw [AList.lookup_insert] at h3
            injection h3 with h3
            subst h3
            simp only
            omega
          · rw [AList.lookup_insert_ne hk] at h3
            exact hsep.2 k1 s k2 t h3 h2 c1 c2
        · exact hsep.2 k1 s k2 t h3 h2 c1 c2
      · intro k'
        apply seqOf_congr
        · rw [deref_set_other _ _ _ _ _ hy]
        · intro t hl
          exact arraysExtend_read _ _ hx t (mapOk_lookup _ _ _ _ hmy hl)
    | del k =>
      injection h with h
      subst h
      refine ⟨?_, ⟨hsep.1, ?_⟩, ?_⟩
      · apply storeOk_set _ σ
        · exact hσ
        · exact mapOk_erase _ _ _ hmx
      · intro k1 s k2 t h1 h2 c1 c2
        have h2 : (deref σ y).lookup k2 = some t := by
          rw [← h2]
          exact congrArg (fun m => AList.lookup k2 m) (deref_set_other σ _ id _ y hy).symm
        rcases lookup_deref_set _ _ _ _ _ _ h1 with h3 | h3
        · by_cases hk : k1 = k
          · subst hk
            rw [AList.lookup_erase] at h3
            cases h3
          · rw [AList.lookup_erase_ne hk] at h3
            exact hsep.2 k1 s k2 t h3 h2 c1 c2
        · exact hsep.2 k1 s k2 t h3 h2 c1 c2
      · intro k'
        apply seqOf_congr
        · exact congrArg (fun m => AList.lookup k' m) (deref_set_other σ _ id _ y hy)
        · intro t hl
          rfl

theorem runOps_separate (grow : Nat → Nat) (x y : Header) (ops : List Op) (σ : Store)
    (hσ : storeOk σ) (hsep : separate σ x y) :
    ∀ k, seqOf (runOps grow x ops σ).1 y k = seqOf σ y k := by
  induction ops generalizing σ with
  | nil => intro k; rfl
  | cons op ops ih =>
    intro k
    unfold runOps
    cases h : applyOp grow σ x op with
    | error e => rfl
    | ok σ1 =>
      obtain ⟨h1, h2, h3⟩ := applyOp_separate grow σ σ1 x y op hσ hsep h
      simp only
      rw [ih σ1 h1 h2 k, h3 k]

/-- A run of calls on an initialized header never fails. -/
theorem runOps_total (grow : Nat → Nat) (id : Nat) (ops : List Op) (σ : Store) :
    (runOps grow (some id) ops σ).2 = none := by
  induction ops generalizing σ with
  | nil => rfl
  | cons op ops ih =>
    unfold runOps
    cases op with
    | add k v => exact ih _
    | set k v => exact ih _
    | del k => exact ih _

/-! ## Independence of a clone -/

theorem separate_symm (σ : Store) (x y : Header) (h : separate σ x y) : separate σ y x :=
  ⟨fun e => h.1 e.symm, fun k s k' t h1 h2 c1 c2 e => h.2 k' t k s h2 h1 c2 c1 e.symm⟩

theorem Clone_deref_old (σ : Store) (h x : Header) (hσ : storeOk σ) (hx : headerOk σ x) :
    deref (Clone σ h).1 x = deref σ x := by
  cases x with
  | none => rfl
  | some id =>
    have hid : id < σ.maps.length := hx id rfl
    obtain ⟨-, -, -, f4⟩ := foldl_cloneStep_frame σ.maps.length (deref σ h).entries
      { arrays := σ.arrays, maps := σ.maps ++ [∅] } (storeOk_push σ hσ)
    rw [Clone_fst]
    show List.getD _ id ∅ = List.getD _ id ∅
    rw [f4 id (Nat.ne_of_lt hid)]
    exact getD_push_old σ.maps id

theorem Clone_storeOk (σ : Store) (h : Header) (hσ : storeOk σ) : storeOk (Clone σ h).1 :=
  (foldl_cloneStep_frame σ.maps.length (deref σ h).entries
    { arrays := σ.arrays, maps := σ.maps ++ [∅] } (storeOk_push σ hσ)).1

theorem Clone_arraysExtend (σ : Store) (h : Header) (hσ : storeOk σ) :
    arraysExtend σ.arrays (Clone σ h).1.arrays :=
  (foldl_cloneStep_frame σ.maps.length (deref σ h).entries
    { arrays := σ.arrays, maps := σ.maps ++ [∅] } (storeOk_push σ hσ)).2.2.1

/-- The call `Clone` leaves every header of the store as it was. -/
theorem Clone_seqOf_old (σ : Store) (h x : Header) (k : String) (hσ : storeOk σ)
    (hx : headerOk σ x) : seqOf (Clone σ h).1 x k = seqOf σ x k := by
  apply seqOf_congr
  · rw [Clone_deref_old σ h x hσ hx]
  · intro s hl
    exact arraysExtend_read _ _ (Clone_arraysExtend σ h hσ) s
      (mapOk_lookup _ _ _ _ (storeOk_deref σ x hσ) hl)

/-- The clone is separate from every header of the store it was made in. -/
theorem Clone_separate (σ : Store) (h x : Header) (hσ : storeOk σ) (hx : headerOk σ x) :
    separate (Clone σ h).1 x (Clone σ h).2 := by
  constructor
  · rw [Clone_snd]
    intro e
    have := hx σ.maps.length e
    omega
  · intro k s k' t h1 h2 c1 c2
    rw [Clone_deref_old σ h x hσ hx] at h1
    have hs := sliceOk_arr_lt _ _ (mapOk_lookup _ _ _ _ (storeOk_deref σ x hσ) h1) c1
    have hf := foldl_cloneStep_fresh σ.maps.length (deref σ h).entries
      { arrays := σ.arrays, maps := σ.maps ++ [∅] } k' t (by simp) h2
    rcases hf with hf | hf
    · simp only [getD_push_new] at hf
      cases hf
    · simp only at hf
      omega

/-- C9: in a well-formed store, the clone of `h` is another map object and
shares no backing array with `h`; `Clone` leaves `h` as it was, and afterwards
no run of `Add`, `Set` and `Del` calls on the clone changes a sequence of `h`,
and no such run on `h` changes a sequence of the clone.  Runs on the clone, and
on an initialized `h`, go through without failure. -/
theorem Clone_independent (grow : Nat → Nat) (σ : Store) (h : Header) (ops : List Op)
    (hσ : storeOk σ) (hh : headerOk σ h) :
    separate (Clone σ h).1 h (Clone σ h).2 ∧
    (∀ k, seqOf (Clone σ h).1 h k = seqOf σ h k) ∧
    (runOps grow (Clone σ h).2 ops (Clone σ h).1).2 = none ∧
    (∀ k, seqOf (runOps grow (Clone σ h).2 ops (Clone σ h).1).1 h k = seqOf σ h k) ∧
    (h ≠ none → (runOps grow h ops (Clone σ h).1).2 = none) ∧
    (∀ k, seqOf (runOps grow h ops (Clone σ h).1).1 (Clone σ h).2 k =
      seqOf (Clone σ h).1 (Clone σ h).2 k) := by
  have hsep := Clone_separate σ h h hσ hh
  have hok := Clone_storeOk σ h hσ
  refine ⟨hsep, fun k => Clone_seqOf_old σ h h k hσ hh, runOps_total grow _ ops _,
    fun k => ?_, fun hn => ?_, fun k => ?_⟩
  · rw [runOps_separate grow _ h ops _ hok (separate_symm _ _ _ hsep) k]
    exact Clone_seqOf_old σ h h k hσ hh
  · cases h with
    | none => exact absurd rfl hn
    | some id => exact runOps_total grow id ops _
  · exact runOps_separate grow h _ ops _ hok hsep k

/-- C9 at the header `{"a": ["x", "y"], "e": []string{}}`: the same three
calls change the clone and not the original, or the original and not the
clone. -/
theorem Clone_independent_witness :
    storeOk mixedStore ∧ headerOk mixedStore (some 0) ∧
    seqOf (runOps double (Clone mixedStore (some 0)).2
      [Op.add "a" "z", Op.del "e", Op.set "a" "w"] (Clone mixedStore (some 0)).1).1
      (Clone mixedStore (some 0)).2 "a" = some ["w"] ∧
    seqOf (runOps double (Clone mixedStore (some 0)).2
      [Op.add "a" "z", Op.del "e", Op.set "a" "w"] (Clone mixedStore (some 0)).1).1
      (some 0) "a" = some ["x", "y"] ∧
    seqOf (runOps double (some 0)
      [Op.add "a" "z", Op.del "e", Op.set "a" "w"] (Clone mixedStore (some 0)).1).1
      (Clone mixedStore (some 0)).2 "a" = some ["x", "y"] :=
  ⟨by decide, by decide, by decide,
    (Clone_independent double mixedStore (some 0) [Op.add "a" "z", Op.del "e", Op.set "a" "w"]
      (by decide) (by decide)).2.2.2.1 "a",
    (Clone_independent double mixedStore (some 0) [Op.add "a" "z", Op.del "e", Op.set "a" "w"]
      (by decide) (by decide)).2.2.2.2.2 "a"⟩

/-! ## The unspecified content length, and the claims at concrete headers -/

/-- C10: when the content-length key is absent, or present with an empty
sequence, or present with the empty string as its first value, and also on the
nil header, `ContentLength` returns `(0, false, nil)`. -/
theorem ContentLength_unspecified (intSize : Nat) (σ : Store) (h : Header)
    (hc : seqOf σ h frameContentLength = none ∨ seqOf σ h frameContentLength = some [] ∨
      ∃ xs, seqOf σ h frameContentLength = some ("" :: xs)) :
    ContentLength intSize σ h = .ok (0, false, none) ∧
    ContentLength intSize σ none = .ok (0, false, none) := by
  refine ⟨?_, rfl⟩
  have hg : Get σ h frameContentLength = .ok "" := by
    rw [Get_eq]
    unfold valuesOf
    rcases hc with h1 | h1 | ⟨xs, h1⟩ <;> rw [h1] <;> rfl
  unfold ContentLength
  rw [hg]
  rfl

/-- C10 at a header whose content-length is `[""]`. -/
theorem ContentLength_unspecified_witness :
    (seqOf blankLengthStore (some 0) frameContentLength = none ∨
      seqOf blankLengthStore (some 0) frameContentLength = some [] ∨
      ∃ xs, seqOf blankLengthStore (some 0) frameContentLength = some ("" :: xs)) ∧
    ContentLength 64 blankLengthStore (some 0) = .ok (0, false, none) :=
  ⟨Or.inr (Or.inr ⟨[], by decide⟩),
    (ContentLength_unspecified 64 blankLengthStore (some 0)
      (Or.inr (Or.inr ⟨[], by decide⟩))).1⟩

/-- C1 at the header `{"k": ["a", "a"]}`: adding a third `"a"`. -/
theorem Add_appends_witness :
    storeOk dupStore ∧ 0 < dupStore.maps.length ∧
    ∃ σ1, Add double dupStore (some 0) "k" "a" = .ok σ1 ∧
      seqOf σ1 (some 0) "k" = some (["a", "a"] ++ ["a"]) :=
  ⟨by decide, by decide, Add_appends double dupStore 0 "k" "a" (by decide) (by decide)⟩

/-- C2 at the empty header, with the values of the scenario of the
specification. -/
theorem Add_twice_witness :
    storeOk emptyStore ∧ 0 < emptyStore.maps.length ∧
    valuesOf emptyStore (some 0) "destination" = [] ∧
    ∃ σ1 σ2, Add double emptyStore (some 0) "destination" "/queue/a" = .ok σ1 ∧
      Add double σ1 (some 0) "destination" "/queue/b" = .ok σ2 ∧
      Get σ2 (some 0) "destination" = .ok "/queue/a" ∧
      seqOf σ2 (some 0) "destination" = some ["/queue/a", "/queue/b"] ∧
      (valuesOf σ2 (some 0) "destination").length = 2 :=
  ⟨by decide, by decide, by decide,
    Add_twice double emptyStore 0 "destination" "/queue/a" "/queue/b"
      (by decide) (by decide) (by decide)⟩

/-- C3 at the header `{"k": ["a", "a"]}`. -/
theorem Set_replaces_witness :
    0 < dupStore.maps.length ∧
    ∃ σ1, Set dupStore (some 0) "k" "v" = .ok σ1 ∧ seqOf σ1 (some 0) "k" = some ["v"] :=
  ⟨by decide, (Set_replaces dupStore 0 "k" (by decide)).1 "v"⟩

/-- C4 at the header `{"a": ["x", "y"], "e": []string{}}`. -/
theorem Get_first_witness :
    seqOf mixedStore (some 0) "a" = some ("x" :: ["y"]) ∧
    Get mixedStore (some 0) "a" = .ok "x" ∧
    seqOf mixedStore (some 0) "e" = some [] ∧
    Get mixedStore (some 0) "e" = .ok "" :=
  ⟨by decide, (Get_first mixedStore (some 0) "a").1 "x" ["y"] (by decide), by decide,
    (Get_first mixedStore (some 0) "e").2.2.1 (by decide)⟩

/-- C6 at the header `{"k": ["a", "a"]}`, and at an absent key. -/
theorem Del_removes_witness :
    seqOf dupStore (some 0) "k" = some ["a", "a"] ∧
    seqOf (Del dupStore (some 0) "k") (some 0) "k" = none ∧
    seqOf dupStore (some 0) "j" = none ∧
    Del dupStore (some 0) "j" = dupStore :=
  ⟨by decide, (Del_removes double dupStore (some 0) 0 "k" "v").1, by decide,
    (Del_removes double dupStore (some 0) 0 "j" "v").2.2.2.2 (by decide)⟩

/-! ## `ParseUint` in base 10 with 32 bits -/

theorem decimalFrom_cons (n c : Nat) (cs : List Nat) :
    decimalFrom n (c :: cs) = decimalFrom (10 * n + (c - 48)) cs := rfl

theorem le_decimalFrom (n : Nat) (cs : List Nat) : n ≤ decimalFrom n cs := by
  induction cs generalizing n with
  | nil => exact Nat.le_refl _
  | cons c cs ih =>
    rw [decimalFrom_cons]
    exact Nat.le_trans (by omega) (ih _)

/-- The digit value of a byte is below ten exactly for the ten decimal
digits. -/
theorem digitVal_lt_ten (c d : Nat) (h : digitVal c = some d) (hd : d < 10) :
    48 ≤ c ∧ c ≤ 57 ∧ d = c - 48 := by
  unfold digitVal at h
  split at h
  · rename_i hc
    injection h with h
    exact ⟨hc.1, hc.2, h.symm⟩
  · split at h
    · injection h with h
      omega
    · cases h

theorem digitVal_digit (c : Nat) (h : 48 ≤ c ∧ c ≤ 57) : digitVal c = some (c - 48) := by
  unfold digitVal
  rw [if_pos h]

theorem parseLoop_cons (base cutoff maxVal c : Nat) (cs : List Nat) (n : Nat) :
    parseLoop base cutoff maxVal (c :: cs) n =
      match digitVal c with
      | none => (0, some NumError.ErrSyntax)
      | some d =>
        if d ≥ base then (0, some NumError.ErrSyntax)
        else if n ≥ cutoff then (maxVal, some NumError.ErrRange)
        else
          if (n * base % 2 ^ 64 + d) % 2 ^ 64 < n * base % 2 ^ 64 ∨
              (n * base % 2 ^ 64 + d) % 2 ^ 64 > maxVal then
            (maxVal, some NumError.ErrRange)
          else parseLoop base cutoff maxVal cs ((n * base % 2 ^ 64 + d) % 2 ^ 64) := rfl

theorem parseLoop_cons_digit (c : Nat) (cs : List Nat) (n : Nat) (hc : 48 ≤ c ∧ c ≤ 57)
    (hn : n ≤ 4294967295) :
    parseLoop 10 ((2 ^ 64 - 1) / 10 + 1) (2 ^ 32 - 1) (c :: cs) n =
      if 10 * n + (c - 48) > 4294967295 then (2 ^ 32 - 1, some NumError.ErrRange)
      else parseLoop 10 ((2 ^ 64 - 1) / 10 + 1) (2 ^ 32 - 1) cs (10 * n + (c - 48)) := by
  rw [parseLoop_cons, digitVal_digit c hc]
  simp only
  have h1 : ¬ (c - 48 ≥ 10) := by omega
  have h2 : ¬ (n ≥ (2 ^ 64 - 1) / 10 + 1) := by norm_num; omega
  rw [if_neg h1, if_neg h2]
  have h3 : n * 10 % 2 ^ 64 = 10 * n := by
    rw [Nat.mod_eq_of_lt (by norm_num; omega)]; omega
  have h4 : (10 * n + (c - 48)) % 2 ^ 64 = 10 * n + (c - 48) :=
    Nat.mod_eq_of_lt (by norm_num; omega)
  rw [h3, h4]
  by_cases h5 : 10 * n + (c - 48) > 4294967295
  · rw [if_pos h5, if_pos (Or.inr (by norm_num; omega))]
  · rw [if_neg h5, if_neg (by norm_num; omega)]

theorem parseLoop_cons_other (c : Nat) (cs : List Nat) (n : Nat) (hc : ¬ (48 ≤ c ∧ c ≤ 57)) :
    (parseLoop 10 ((2 ^ 64 - 1) / 10 + 1) (2 ^ 32 - 1) (c :: cs) n).2 =
      some NumError.ErrSyntax := by
  rw [parseLoop_cons]
  cases hd : digitVal c with
  | none => rfl
  | some d =>
    simp only
    have : d ≥ 10 := by
      by_contra hlt
      have := digitVal_lt_ten c d hd (by omega)
      exact hc ⟨this.1, this.2.1⟩
    rw [if_pos this]

/-- The loop of `ParseUint` in base 10 with 32 bits, on a text of decimal
digits whose value fits: it returns that value. -/
theorem parseLoop_valid (cs : List Nat) (n : Nat) (hn : n ≤ 4294967295)
    (hd : ∀ c ∈ cs, 48 ≤ c ∧ c ≤ 57) (hv : decimalFrom n cs ≤ 4294967295) :
    parseLoop 10 ((2 ^ 64 - 1) / 10 + 1) (2 ^ 32 - 1) cs n = (decimalFrom n cs, none) := by
  induction cs generalizing n with
  | nil => rfl
  | cons c cs ih =>
    rw [decimalFrom_cons] at hv
    have hle := le_decimalFrom (10 * n + (c - 48)) cs
    rw [parseLoop_cons_digit c cs n (hd c (List.mem_cons_self _ _)) hn,
      if_neg (by omega), decimalFrom_cons]
    exact ih _ (by omega) (fun x hx => hd x (List.mem_cons_of_mem _ hx)) hv

/-- The loop of `ParseUint` in base 10 with 32 bits reports no error only on
a text of decimal digits whose value fits. -/
theorem parseLoop_no_error (cs : List Nat) (n : Nat) (hn : n ≤ 4294967295)
    (h : (parseLoop 10 ((2 ^ 64 - 1) / 10 + 1) (2 ^ 32 - 1) cs n).2 = none) :
    (∀ c ∈ cs, 48 ≤ c ∧ c ≤ 57) ∧ decimalFrom n cs ≤ 4294967295 := by
  induction cs generalizing n with
  | nil => exact ⟨fun c hc => absurd hc (List.not_mem_nil c), hn⟩
  | cons c cs ih =>
    by_cases hc : 48 ≤ c ∧ c ≤ 57
    · rw [parseLoop_cons_digit c cs n hc hn] at h
      by_cases h5 : 10 * n + (c - 48) > 4294967295
      · rw [if_pos h5] at h
        cases h
      · rw [if_neg h5] at h
        obtain ⟨i1, i2⟩ := ih _ (by omega) h
        refine ⟨?_, i2⟩
        intro x hx
        rcases List.mem_cons.mp hx with e | e
        · rw [e]; exact hc
        · exact i1 x e
    · rw [parseLoop_cons_other c cs n hc] at h
      cases h

theorem ParseUint_valid (s : String) (h : validUint32 s) :
    ParseUint s 10 32 = (decimalValue s, none) := by
  unfold ParseUint
  rw [if_neg h.1.1, if_neg (by omega), if_neg (by omega)]
  exact parseLoop_valid _ 0 (by omega) h.1.2 h.2

theorem ParseUint_no_error (s : String) (h : (ParseUint s 10 32).2 = none) : validUint32 s := by
  unfold ParseUint at h
  by_cases hs : s = ""
  · rw [if_pos hs] at h
    cases h
  · rw [if_neg hs, if_neg (by omega), if_neg (by omega)] at h
    obtain ⟨h1, h2⟩ := parseLoop_no_error _ 0 (by omega) h
    exact ⟨⟨hs, h1⟩, h2⟩

theorem toInt_small (intSize n : Nat) (h : n < 2 ^ (intSize - 1)) : toInt intSize n = (n : Int) := by
  unfold toInt
  have hle : 2 ^ (intSize - 1) ≤ 2 ^ intSize := Nat.pow_le_pow_right (by omega) (by omega)
  have hm : n % 2 ^ intSize = n := Nat.mod_eq_of_lt (by omega)
  rw [hm, if_pos h]

/-! ## The content length of a header -/

theorem Get_firstLength (σ : Store) (h : Header) :
    Get σ h frameContentLength = .ok (firstLength σ h) :=
  Get_eq σ h frameContentLength

theorem firstLength_of_seqOf (σ : Store) (h : Header) (text : String) (rest : List String)
    (hs : seqOf σ h frameContentLength = some (text :: rest)) : firstLength σ h = text := by
  unfold firstLength valuesOf
  rw [hs]
  rfl

theorem ContentLength_empty (intSize : Nat) (σ : Store) (h : Header)
    (ht : firstLength σ h = "") : ContentLength intSize σ h = .ok (0, false, none) := by
  unfold ContentLength
  rw [Get_firstLength, ht]
  rfl

theorem ContentLength_of_valid (intSize : Nat) (σ : Store) (h : Header)
    (hv : validUint32 (firstLength σ h)) :
    ContentLength intSize σ h = .ok (toInt intSize (decimalValue (firstLength σ h)), true, none) := by
  unfold ContentLength
  rw [Get_firstLength]
  simp only
  rw [if_neg hv.1.1, ParseUint_valid _ hv]
  rfl

theorem ContentLength_of_invalid (intSize : Nat) (σ : Store) (h : Header)
    (hne : firstLength σ h ≠ "") (hv : ¬ validUint32 (firstLength σ h)) :
    ∃ e, ContentLength intSize σ h = .ok (0, false, some e) := by
  unfold ContentLength
  rw [Get_firstLength]
  simp only
  rw [if_neg hne]
  cases he : (ParseUint (firstLength σ h) 10 32).2 with
  | none => exact absurd (ParseUint_no_error _ he) hv
  | some e => exact ⟨e, rfl⟩

/-- C11 (as amended): when the first content-length value is a non-empty text
of decimal digits whose value `n` is at most 4294967295 and fits the `int` of
the platform (always so when `int` is wider than 32 bits), `ContentLength`
returns `(n, true, nil)`. -/
theorem ContentLength_valid (intSize : Nat) (σ : Store) (h : Header) (text : String)
    (rest : List String) (hs : seqOf σ h frameContentLength = some (text :: rest))
    (hd : allDigits text) (hv : decimalValue text ≤ 4294967295)
    (hint : 32 < intSize ∨ decimalValue text < 2 ^ (intSize - 1)) :
    ContentLength intSize σ h = .ok ((decimalValue text : Int), true, none) := by
  have ht := firstLength_of_seqOf σ h text rest hs
  have hfit : decimalValue text < 2 ^ (intSize - 1) := by
    rcases hint with h1 | h1
    · have : 2 ^ 32 ≤ 2 ^ (intSize - 1) := Nat.pow_le_pow_right (by omega) (by omega)
      omega
    · exact h1
  rw [ContentLength_of_valid intSize σ h (by rw [ht]; exact ⟨hd, hv⟩), ht,
    toInt_small intSize _ hfit]

/-- C11 (as amended) at the content lengths `"42"` and `"0"`, with an `int`
of 64 bits. -/
theorem ContentLength_valid_witness :
    seqOf (lengthStore "42") (some 0) frameContentLength = some ["42"] ∧
    allDigits "42" ∧ decimalValue "42" ≤ 4294967295 ∧
    ContentLength 64 (lengthStore "42") (some 0) = .ok (42, true, none) ∧
    ContentLength 64 (lengthStore "0") (some 0) = .ok (0, true, none) :=
  ⟨by decide, by decide, by decide,
    ContentLength_valid 64 (lengthStore "42") (some 0) "42" [] (by decide) (by decide)
      (by decide) (Or.inl (by decide)),
    ContentLength_valid 64 (lengthStore "0") (some 0) "0" [] (by decide) (by decide)
      (by decide) (Or.inl (by decide))⟩

/-- C11 (as stated) fails where `int` has 32 bits: the content length
`"2147483648"` is a text of decimal digits with a value below 4294967295, and
`ContentLength` returns `(-2147483648, true, nil)`. -/
theorem ContentLength_wraps_on_32_bit_int :
    seqOf (lengthStore "2147483648") (some 0) frameContentLength = some ["2147483648"] ∧
    allDigits "2147483648" ∧ decimalValue "2147483648" = 2147483648 ∧
    ContentLength 32 (lengthStore "2147483648") (some 0) = .ok (-2147483648, true, none) :=
  ⟨by decide, by decide, by decide, rfl⟩

/-- C12: `ContentLength` returns an error exactly when the first
content-length value is a non-empty text that is not a valid unsigned base-10
integer representable in 32 bits; then `ok` is false and the integer is 0. -/
theorem ContentLength_error_iff (intSize : Nat) (σ : Store) (h : Header) :
    ∃ v ok err, ContentLength intSize σ h = .ok (v, ok, err) ∧
      (err ≠ none ↔ firstLength σ h ≠ "" ∧ ¬ validUint32 (firstLength σ h)) ∧
      (err ≠ none → ok = false ∧ v = 0) := by
  by_cases he : firstLength σ h = ""
  · refine ⟨0, false, none, ContentLength_empty intSize σ h he, ?_, fun _ => ⟨rfl, rfl⟩⟩
    constructor
    · intro hc; exact absurd rfl hc
    · intro hc; exact absurd he hc.1
  · by_cases hv : validUint32 (firstLength σ h)
    · refine ⟨_, true, none, ContentLength_of_valid intSize σ h hv, ?_,
        fun hc => absurd rfl hc⟩
      constructor
      · intro hc; exact absurd rfl hc
      · intro hc; exact absurd hv hc.2
    · obtain ⟨e, hce⟩ := ContentLength_of_invalid intSize σ h he hv
      refine ⟨0, false, some e, hce, ?_, fun _ => ⟨rfl, rfl⟩⟩
      constructor
      · intro _; exact ⟨he, hv⟩
      · intro _ hc; cases hc

/-- C12 at the content lengths `"abc"`, `"-1"` and `"4294967296"`. -/
theorem ContentLength_error_witness :
    ¬ validUint32 "abc" ∧ ¬ validUint32 "-1" ∧ ¬ validUint32 "4294967296" ∧
    ContentLength 64 (lengthStore "abc") (some 0) = .ok (0, false, some NumError.ErrSyntax) ∧
    ContentLength 64 (lengthStore "-1") (some 0) = .ok (0, false, some NumError.ErrSyntax) ∧
    ContentLength 64 (lengthStore "4294967296") (some 0) =
      .ok (0, false, some NumError.ErrRange) :=
  ⟨by decide, by decide, by decide, rfl, rfl, rfl⟩

/-- The outcomes of `ContentLength`, whatever the width of `int`: it always
returns, with `(0, false, nil)`, or `(0, false, err)` and an error, or
`(n, true, nil)`; where `int` is wider than 32 bits the integer is then
between 0 and 4294967295. -/
theorem ContentLength_outcomes (intSize : Nat) (σ : Store) (h : Header) :
    ∃ v ok err, ContentLength intSize σ h = .ok (v, ok, err) ∧
      ((v = 0 ∧ ok = false ∧ err = none) ∨ (v = 0 ∧ ok = false ∧ err ≠ none) ∨
        (ok = true ∧ err = none)) ∧
      (ok = true → 32 < intSize → 0 ≤ v ∧ v ≤ 4294967295) := by
  by_cases he : firstLength σ h = ""
  · exact ⟨0, false, none, ContentLength_empty intSize σ h he, Or.inl ⟨rfl, rfl, rfl⟩,
      fun hc => by cases hc⟩
  · by_cases hv : validUint32 (firstLength σ h)
    · refine ⟨_, true, none, ContentLength_of_valid intSize σ h hv, Or.inr (Or.inr ⟨rfl, rfl⟩),
        fun _ hi => ?_⟩
      have : 2 ^ 32 ≤ 2 ^ (intSize - 1) := Nat.pow_le_pow_right (by omega) (by omega)
      have hb := hv.2
      rw [toInt_small intSize _ (by omega)]
      omega
    · obtain ⟨e, hce⟩ := ContentLength_of_invalid intSize σ h he hv
      exact ⟨0, false, some e, hce, Or.inr (Or.inl ⟨rfl, rfl, fun hc => by cases hc⟩),
        fun hc => by cases hc⟩

/-- C16: where `int` has 32 bits, the content length `"4294967295"` makes
`ContentLength` return `ok = true` with the negative integer `-1`. -/
theorem ContentLength_negative_on_32_bit_int :
    seqOf (lengthStore "4294967295") (some 0) frameContentLength = some ["4294967295"] ∧
    ParseUint "4294967295" 10 32 = (4294967295, none) ∧
    ContentLength 32 (lengthStore "4294967295") (some 0) = .ok (-1, true, none) :=
  ⟨by decide, by decide, rfl⟩

/-- C17: `ContentLength` depends on the header only through
`Get("content-length")`, that is through the first value stored under that
key: two headers that agree on it get the same result. -/
theorem ContentLength_depends_on_Get (intSize : Nat) (σ1 : Store) (h1 : Header) (σ2 : Store)
    (h2 : Header) (hg : Get σ1 h1 frameContentLength = Get σ2 h2 frameContentLength) :
    ContentLength intSize σ1 h1 = ContentLength intSize σ2 h2 ∧
    firstLength σ1 h1 = firstLength σ2 h2 := by
  constructor
  · unfold ContentLength
    rw [hg]
  · rw [Get_firstLength, Get_firstLength] at hg
    injection hg

/-- C17 at the content lengths `["5", "abc"]` and `["", "5"]`: the second
value is ignored. -/
theorem ContentLength_depends_on_Get_witness :
    Get (twoLengthStore "5" "abc") (some 0) frameContentLength =
      Get (lengthStore "5") (some 0) frameContentLength ∧
    ContentLength 64 (twoLengthStore "5" "abc") (some 0) =
      ContentLength 64 (lengthStore "5") (some 0) ∧
    ContentLength 64 (twoLengthStore "5" "abc") (some 0) = .ok (5, true, none) ∧
    ContentLength 64 (twoLengthStore "" "5") (some 0) = .ok (0, false, none) :=
  ⟨rfl, (ContentLength_depends_on_Get 64 (twoLengthStore "5" "abc") (some 0) (lengthStore "5")
    (some 0) rfl).1, rfl, rfl⟩

/-! ## Totality and the invariant of the data model -/

theorem Contains_ok (σ : Store) (h : Header) (k : String) (hk : seqOf σ h k ≠ some []) :
    Contains σ h k = .ok ((valuesOf σ h k).headD "", (seqOf σ h k).isSome) := by
  rw [Contains_eq]
  unfold valuesOf
  cases hs : seqOf σ h k with
  | none => rfl
  | some l =>
    cases l with
    | nil => exact absurd hs hk
    | cons x xs => rfl

/-- C13 (as amended): `Get`, `Del` and `Clone` complete normally on every
header; `Add` and `Set` complete normally on every initialized header and
fail on the nil header, with an assignment to an entry of a nil map;
`Contains` completes normally on the nil header and for every key that is
absent or has at least one value. -/
theorem operations_total (grow : Nat → Nat) (σ : Store) (h : Header) (id : Nat)
    (k v : String) :
    (∃ r, Get σ h k = .ok r) ∧
    (∃ σ1, Add grow σ (some id) k v = .ok σ1) ∧
    (∃ σ1, Set σ (some id) k v = .ok σ1) ∧
    Add grow σ none k v = .error Panic.assignNilMap ∧
    Set σ none k v = .error Panic.assignNilMap ∧
    Contains σ none k = .ok ("", false) ∧
    (seqOf σ h k ≠ some [] → ∃ r, Contains σ h k = .ok r) ∧
    (∃ σ1, Del σ h k = σ1) ∧ (∃ σ1 c, Clone σ h = (σ1, some c)) :=
  ⟨⟨_, Get_eq σ h k⟩, ⟨_, Add_eq grow σ id k v⟩, ⟨_, Set_eq σ id k v⟩, rfl, rfl, rfl,
    fun hk => ⟨_, Contains_ok σ h k hk⟩, ⟨_, rfl⟩, ⟨_, _, rfl⟩⟩

/-- C13 (as amended) at the header `{"a": ["x", "y"], "e": []string{}}`:
`Contains("a")` completes normally. -/
theorem operations_total_witness :
    seqOf mixedStore (some 0) "a" ≠ some [] ∧
    ∃ r, Contains mixedStore (some 0) "a" = .ok r :=
  ⟨by decide, (operations_total double mixedStore (some 0) 0 "a" "v").2.2.2.2.2.2.1 (by decide)⟩

/-- C13 (as stated) fails: on the nil header `Add` and `Set` stop with an
assignment to an entry of a nil map. -/
theorem Add_and_Set_fail_on_nil :
    Add double emptyStore none "k" "v" = .error Panic.assignNilMap ∧
    Set emptyStore none "k" "v" = .error Panic.assignNilMap :=
  ⟨rfl, rfl⟩

theorem seqOf_eq_nil_iff (σ : Store) (h : Header) (k : String) :
    seqOf σ h k = some [] ↔ ∃ s, (deref σ h).lookup k = some s ∧ s.len = 0 := by
  unfold seqOf
  cases (deref σ h).lookup k with
  | none => simp
  | some s =>
    simp only [Option.map_some', Option.some.injEq, exists_eq_left']
    constructor
    · intro hr
      have := length_readSlice σ.arrays s
      rw [hr] at this
      exact this.symm
    · exact readSlice_len_zero _ _

theorem nonEmptySeqs_iff (σ : Store) (h : Header) :
    nonEmptySeqs σ h ↔ ∀ k s, (deref σ h).lookup k = some s → 0 < s.len := by
  unfold nonEmptySeqs
  constructor
  · intro hn k s hl
    by_contra h0
    exact hn k ((seqOf_eq_nil_iff σ h k).mpr ⟨s, hl, by omega⟩)
  · intro hn k hk
    obtain ⟨s, hl, h0⟩ := (seqOf_eq_nil_iff σ h k).mp hk
    have := hn k s hl
    omega

theorem nonEmptySeqs_of_entries (σ : Store) (h : Header)
    (he : ∀ e ∈ (deref σ h).entries, 0 < e.2.len) : nonEmptySeqs σ h := by
  rw [nonEmptySeqs_iff]
  intro k s hl
  exact he ⟨k, s⟩ (AList.mem_lookup_iff.mp hl)

theorem goAppend_len (grow : Nat → Nat) (a : Arrays) (s : Slice) (v : String) :
    (goAppend grow a s v).2.len = s.len + 1 := by
  unfold goAppend
  split <;> rfl

theorem nonEmptySeqs_set (σ : Store) (a : Arrays) (id : Nat) (m : HMap)
    (hn : nonEmptySeqs σ (some id)) (hm : ∀ k s, m.lookup k = some s → 0 < s.len) :
    nonEmptySeqs { arrays := a, maps := σ.maps.set id m } (some id) := by
  rw [nonEmptySeqs_iff] at *
  intro k s hl
  rcases lookup_deref_set σ a id m k s hl with h1 | h1
  · exact hm k s h1
  · exact hn k s h1

theorem Add_nonEmptySeqs (grow : Nat → Nat) (σ σ1 : Store) (id : Nat) (k v : String)
    (hn : nonEmptySeqs σ (some id)) (h : Add grow σ (some id) k v = .ok σ1) :
    nonEmptySeqs σ1 (some id) := by
  rw [Add_eq] at h
  injection h with h
  subst h
  apply nonEmptySeqs_set σ _ id _ hn
  intro k' s hl
  by_cases hk : k' = k
  · subst hk
    rw [AList.lookup_insert] at hl
    injection hl with hl
    rw [← hl, goAppend_len]
    omega
  · rw [AList.lookup_insert_ne hk] at hl
    exact (nonEmptySeqs_iff σ (some id)).mp hn k' s hl

theorem Set_nonEmptySeqs (σ σ1 : Store) (id : Nat) (k v : String)
    (hn : nonEmptySeqs σ (some id)) (h : Set σ (some id) k v = .ok σ1) :
    nonEmptySeqs σ1 (some id) := by
  rw [Set_eq] at h
  injection h with h
  subst h
  apply nonEmptySeqs_set σ _ id _ hn
  intro k' s hl
  by_cases hk : k' = k
  · subst hk
    rw [AList.lookup_insert] at hl
    injection hl with hl
    rw [← hl]
    exact Nat.one_pos
  · rw [AList.lookup_insert_ne hk] at hl
    exact (nonEmptySeqs_iff σ (some id)).mp hn k' s hl

theorem Del_nonEmptySeqs (σ : Store) (id : Nat) (k : String)
    (hn : nonEmptySeqs σ (some id)) : nonEmptySeqs (Del σ (some id) k) (some id) := by
  apply nonEmptySeqs_set σ _ id _ hn
  intro k' s hl
  by_cases hk : k' = k
  · subst hk
    rw [AList.lookup_erase] at hl
    cases hl
  · rw [AList.lookup_erase_ne hk] at hl
    exact (nonEmptySeqs_iff σ (some id)).mp hn k' s hl

theorem Clone_nonEmptySeqs (σ : Store) (h : Header) (hσ : storeOk σ) :
    nonEmptySeqs (Clone σ h).1 (Clone σ h).2 := by
  intro k hk
  rw [Clone_seqOf σ h k hσ] at hk
  cases hs : seqOf σ h k with
  | none => rw [hs] at hk; cases hk
  | some l =>
    rw [hs] at hk
    cases l with
    | nil => cases hk
    | cons x xs => cases hk

/-- C14: that every present key has at least one value holds of the empty
header, is kept on an initialized header by `Add`, `Set` and `Del`, and
holds of the result of `Clone` whether or not it holds of the input. -/
theorem nonEmptySeqs_invariant (grow : Nat → Nat) (σ : Store) (h : Header) (id : Nat)
    (k v : String) (hσ : storeOk σ) :
    nonEmptySeqs emptyStore (some 0) ∧
    (nonEmptySeqs σ (some id) →
      (∃ σ1, Add grow σ (some id) k v = .ok σ1 ∧ nonEmptySeqs σ1 (some id)) ∧
      (∃ σ1, Set σ (some id) k v = .ok σ1 ∧ nonEmptySeqs σ1 (some id)) ∧
      nonEmptySeqs (Del σ (some id) k) (some id) ∧ seqOf (Del σ (some id) k) (some id) k = none) ∧
    nonEmptySeqs (Clone σ h).1 (Clone σ h).2 := by
  refine ⟨?_, ?_, Clone_nonEmptySeqs σ h hσ⟩
  · intro k' hk
    cases hk
  · intro hn
    exact ⟨⟨_, Add_eq grow σ id k v,
        Add_nonEmptySeqs grow σ _ id k v hn (Add_eq grow σ id k v)⟩,
      ⟨_, Set_eq σ id k v, Set_nonEmptySeqs σ _ id k v hn (Set_eq σ id k v)⟩,
      Del_nonEmptySeqs σ id k hn, seqOf_Del_self σ (some id) k⟩

/-- C14 at the header `{"a": ["x", "y"], "e": []string{}}`, which has an
empty sequence: its clone has none; and at the header `{"k": ["a", "a"]}`,
which keeps the invariant under `Add`. -/
theorem nonEmptySeqs_invariant_witness :
    storeOk mixedStore ∧ seqOf mixedStore (some 0) "e" = some [] ∧
    nonEmptySeqs (Clone mixedStore (some 0)).1 (Clone mixedStore (some 0)).2 ∧
    storeOk dupStore ∧ nonEmptySeqs dupStore (some 0) ∧
    ∃ σ1, Add double dupStore (some 0) "k" "v" = .ok σ1 ∧ nonEmptySeqs σ1 (some 0) :=
  ⟨by decide, by decide,
    (nonEmptySeqs_invariant double mixedStore (some 0) 0 "a" "v" (by decide)).2.2,
    by decide, nonEmptySeqs_of_entries dupStore (some 0) (by decide),
    ((nonEmptySeqs_invariant double dupStore (some 0) 0 "k" "v" (by decide)).2.1
      (nonEmptySeqs_of_entries dupStore (some 0) (by decide))).1⟩

/-! ## `Get` against `Contains` -/

/-- C15: `Get` does not tell an absent key from a key whose first value is
the empty string, and `Contains` does: for the key `"content-length"`, the
empty header and the header `{"content-length": [""]}` both give `""` to
`Get`, and give `("", false)` and `("", true)` to `Contains`. -/
theorem Get_cannot_tell_absent :
    ∃ k σ1 h1 σ2 h2, seqOf σ1 h1 k = none ∧ seqOf σ2 h2 k = some [""] ∧
      Get σ1 h1 k = .ok "" ∧ Get σ2 h2 k = .ok "" ∧
      Contains σ1 h1 k = .ok ("", false) ∧ Contains σ2 h2 k = .ok ("", true) :=
  ⟨"content-length", emptyStore, some 0, blankLengthStore, some 0,
    by decide, by decide, rfl, rfl, rfl, rfl⟩

/-- C18: on a header in which every present key has at least one value, and
on the nil header, `Contains(k)` returns the value of `Get(k)` together with
whether `k` is a key; so `Get` returns `""` when `Contains` reports false. -/
theorem Get_Contains_agree (σ : Store) (h : Header) (k : String) (hn : nonEmptySeqs σ h) :
    (∃ g, Get σ h k = .ok g ∧ Contains σ h k = .ok (g, (seqOf σ h k).isSome) ∧
      ((seqOf σ h k).isSome = false → g = "")) ∧
    Get σ none k = .ok "" ∧ Contains σ none k = .ok ("", false) := by
  refine ⟨⟨_, Get_eq σ h k, Contains_ok σ h k (hn k), ?_⟩, rfl, rfl⟩
  intro hs
  unfold valuesOf
  cases hq : seqOf σ h k with
  | none => rfl
  | some l => rw [hq] at hs; cases hs

/-- C18 at the header `{"k": ["a", "a"]}`, for a present and an absent
key. -/
theorem Get_Contains_agree_witness :
    nonEmptySeqs dupStore (some 0) ∧
    (∃ g, Get dupStore (some 0) "k" = .ok g ∧ Contains dupStore (some 0) "k" = .ok (g, true)) ∧
    (∃ g, Get dupStore (some 0) "j" = .ok g ∧ Contains dupStore (some 0) "j" = .ok (g, false)) :=
  ⟨nonEmptySeqs_of_entries dupStore (some 0) (by decide),
    (Get_Contains_agree dupStore (some 0) "k"
      (nonEmptySeqs_of_entries dupStore (some 0) (by decide))).1.imp (fun _ hg => ⟨hg.1, hg.2.1⟩),
    (Get_Contains_agree dupStore (some 0) "j"
      (nonEmptySeqs_of_entries dupStore (some 0) (by decide))).1.imp (fun _ hg => ⟨hg.1, hg.2.1⟩)⟩

/-! ## `Clone` twice, and `Set` as `Del` then `Add` -/

theorem valuesOf_Clone_headD (σ : Store) (h : Header) (k : String) (hσ : storeOk σ) :
    (valuesOf (Clone σ h).1 (Clone σ h).2 k).headD "" = (valuesOf σ h k).headD "" := by
  unfold valuesOf
  rw [Clone_seqOf σ h k hσ]
  cases hs : seqOf σ h k with
  | none => rfl
  | some l =>
    cases l with
    | nil => rfl
    | cons x xs => rfl

theorem Clone_maps_length (σ : Store) (h : Header) (hσ : storeOk σ) :
    (Clone σ h).1.maps.length = σ.maps.length + 1 := by
  have := (foldl_cloneStep_frame σ.maps.length (deref σ h).entries
    { arrays := σ.arrays, maps := σ.maps ++ [∅] } (storeOk_push σ hσ)).2.1
  rw [Clone_fst, this]
  simp

theorem Clone_nil_seqOf (σ : Store) (k : String) (hσ : storeOk σ) :
    seqOf (Clone σ none).1 (Clone σ none).2 k = none := by
  rw [Clone_seqOf σ none k hσ]
  rfl

/-- C19: in a well-formed store, the clone of a clone has the content of
the clone; `Get` returns on the clone what it returns on the original; and
the clone of the nil header is an initialized header without keys, on which
`Add` and `Set` succeed. -/
theorem Clone_idempotent (grow : Nat → Nat) (σ : Store) (h : Header) (k v : String)
    (hσ : storeOk σ) :
    (∀ k', seqOf (Clone (Clone σ h).1 (Clone σ h).2).1 (Clone (Clone σ h).1 (Clone σ h).2).2 k' =
      seqOf (Clone σ h).1 (Clone σ h).2 k') ∧
    (∀ k', Get (Clone σ h).1 (Clone σ h).2 k' = Get σ h k') ∧
    (Clone σ none).2 ≠ none ∧
    (∀ k', seqOf (Clone σ none).1 (Clone σ none).2 k' = none) ∧
    (∃ σ1, Add grow (Clone σ none).1 (Clone σ none).2 k v = .ok σ1 ∧
      seqOf σ1 (Clone σ none).2 k = some [v]) ∧
    (∃ σ1, Set (Clone σ none).1 (Clone σ none).2 k v = .ok σ1 ∧
      seqOf σ1 (Clone σ none).2 k = some [v]) := by
  have hlen := Clone_maps_length σ none hσ
  refine ⟨fun k' => ?_, fun k' => ?_, fun hc => (by cases hc),
    fun k' => Clone_nil_seqOf σ k' hσ, ⟨_, Add_eq grow _ _ k v, ?_⟩, ⟨_, Set_eq _ _ k v, ?_⟩⟩
  · rw [Clone_seqOf _ _ k' (Clone_storeOk σ h hσ)]
    have hne := Clone_nonEmptySeqs σ h hσ k'
    cases hs : seqOf (Clone σ h).1 (Clone σ h).2 k' with
    | none => rfl
    | some l =>
      cases l with
      | nil => exact absurd hs hne
      | cons x xs => rfl
  · rw [Get_eq, Get_eq, valuesOf_Clone_headD σ h k' hσ]
  · have hs := Add_seqOf_self grow (Clone σ none).1 _ σ.maps.length k v
      (Clone_storeOk σ none hσ) (by omega) (Add_eq grow _ _ k v)
    have hv : valuesOf (Clone σ none).1 (some σ.maps.length) k = [] := by
      unfold valuesOf
      rw [show (some σ.maps.length : Header) = (Clone σ none).2 from rfl,
        Clone_nil_seqOf σ k hσ]
      rfl
    rw [hv] at hs
    exact hs
  · exact Set_seqOf_self (Clone σ none).1 _ σ.maps.length k v (by omega) (Set_eq _ _ k v)

/-- C19 at the header `{"a": ["x", "y"], "e": []string{}}`: the clone of its
clone holds `"a"` as the clone does, and `Get("e")` is `""` on both. -/
theorem Clone_idempotent_witness :
    storeOk mixedStore ∧
    seqOf (Clone (Clone mixedStore (some 0)).1 (Clone mixedStore (some 0)).2).1
      (Clone (Clone mixedStore (some 0)).1 (Clone mixedStore (some 0)).2).2 "a" =
      some ["x", "y"] ∧
    Get (Clone mixedStore (some 0)).1 (Clone mixedStore (some 0)).2 "e" = .ok "" :=
  ⟨by decide, (Clone_idempotent double mixedStore (some 0) "a" "v" (by decide)).1 "a",
    (Clone_idempotent double mixedStore (some 0) "a" "v" (by decide)).2.1 "e"⟩

theorem Del_storeOk (σ : Store) (h : Header) (k : String) (hσ : storeOk σ) :
    storeOk (Del σ h k) := by
  cases h with
  | none => exact hσ
  | some id =>
    apply storeOk_set _ σ
    · exact hσ
    · exact mapOk_erase _ _ _ (storeOk_deref σ (some id) hσ)

theorem Set_storeOk (σ σ1 : Store) (id : Nat) (k v : String) (hσ : storeOk σ)
    (h : Set σ (some id) k v = .ok σ1) : storeOk σ1 :=
  (applyOp_separate double σ σ1 (some id) none (Op.set k v) hσ
    ⟨fun hc => (by cases hc), fun _ _ _ _ _ h2 => (by cases h2)⟩ h).1

theorem mapIndex_Del (σ : Store) (h : Header) (k : String) :
    mapIndex (deref (Del σ h k) h) k = nilSlice := by
  unfold mapIndex
  rw [deref_Del, AList.lookup_erase]
  rfl

/-- C20: on an initialized header of a well-formed store, `Set(k, v)` and
`Del(k); Add(k, v)` both succeed and leave headers equal in content; `Set`
twice leaves what `Set` once does; and after `Set(k, v)`, `Get(k)` returns
`v` and `Contains(k)` returns `(v, true)`. -/
theorem Set_eq_Del_Add (grow : Nat → Nat) (σ : Store) (id : Nat) (k v : String)
    (hσ : storeOk σ) (hid : id < σ.maps.length) :
    ∃ σs σa, Set σ (some id) k v = .ok σs ∧
      Add grow (Del σ (some id) k) (some id) k v = .ok σa ∧
      (∀ k', seqOf σs (some id) k' = seqOf σa (some id) k') ∧
      (∃ σ2, Set σs (some id) k v = .ok σ2 ∧
        ∀ k', seqOf σ2 (some id) k' = seqOf σs (some id) k') ∧
      Get σs (some id) k = .ok v ∧ Contains σs (some id) k = .ok (v, true) := by
  have es := Set_eq σ id k v
  have ea := Add_eq grow (Del σ (some id) k) id k v
  have hks := Set_seqOf_self σ _ id k v hid es
  have hls := Set_maps_length σ _ id k v es
  have hos := Set_storeOk σ _ id k v hσ es
  have hod := Del_storeOk σ (some id) k hσ
  have hld : (Del σ (some id) k).maps.length = σ.maps.length := by
    show (σ.maps.set id _).length = _
    simp
  refine ⟨_, _, es, ea, fun k' => ?_, ⟨_, Set_eq _ id k v, fun k' => ?_⟩, ?_, ?_⟩
  · by_cases hk : k' = k
    · subst hk
      rw [hks, Add_seqOf_self grow _ _ id k' v hod (by omega) ea]
      unfold valuesOf
      rw [seqOf_Del_self]
      rfl
    · rw [Set_seqOf_ne σ _ id k k' v hσ hk es,
        Add_seqOf_ne grow _ _ id k k' v hod hk ?_ ea, seqOf_Del_ne σ (some id) k k' hk]
      rw [mapIndex_Del]
      intro hsp
      exact absurd hsp.1 (by simp [nilSlice])
  · by_cases hk : k' = k
    · subst hk
      rw [hks, Set_seqOf_self _ _ id k' v (by omega) (Set_eq _ id k' v)]
    · exact Set_seqOf_ne _ _ id k k' v hos hk (Set_eq _ id k v)
  · rw [Get_eq]
    unfold valuesOf
    rw [hks]
    rfl
  · rw [Contains_eq, hks]

/-- C20 at the header `{"k": ["a", "a"]}`. -/
theorem Set_eq_Del_Add_witness :
    storeOk dupStore ∧ 0 < dupStore.maps.length ∧
    ∃ σs σa, Set dupStore (some 0) "k" "v" = .ok σs ∧
      Add double (Del dupStore (some 0) "k") (some 0) "k" "v" = .ok σa ∧
      (∀ k', seqOf σs (some 0) k' = seqOf σa (some 0) k') ∧
      Get σs (some 0) "k" = .ok "v" ∧ Contains σs (some 0) "k" = .ok ("v", true) :=
  ⟨by decide, by decide,
    (Set_eq_Del_Add double dupStore 0 "k" "v" (by decide) (by decide)).imp
      (fun _ h1 => h1.imp (fun _ h2 => ⟨h2.1, h2.2.1, h2.2.2.1, h2.2.2.2.2⟩))⟩

end stomp
